import Mathlib

/-!
Verification of the batched write-coalescing buffer (class BulkUpdater in
iris/backend.py) against its design documentation.

The embedding models:
  - documents as ordered association lists of field name to value, together
    with the optional object attribute holding a per-document unique-attribute
    field-name override (the attribute consulted via getattr in the source);
  - the mongo collection handle as a list of remote documents plus a list of
    attribute names on which a find query raises;
  - the buffer (BulkUpdater) state with its two pending lists, threshold,
    running total and lifetime counters;
  - each operation returns, besides the successor state, the trace of calls
    issued against the collection handle, the number of times the internal
    flush body executed, and an optional error mirroring a raised exception.
-/

set_option autoImplicit false

/-- Lookup in an ordered association list: first binding of the key wins,
matching a Python dict read. -/
def alistLookup {α β : Type} [DecidableEq α] : List (α × β) → α → Option β
  | [], _ => none
  | (k, v) :: t, a => if k = a then some v else alistLookup t a

/-- Ordered association-list write: overwrite the binding in place when the
key is present, append it otherwise, matching a Python dict assignment. -/
def alistInsert {α β : Type} [DecidableEq α] : List (α × β) → α → β → List (α × β)
  | [], a, b => [(a, b)]
  | (k, v) :: t, a, b => if k = a then (a, b) :: t else (k, v) :: alistInsert t a b

/-- Number of occurrences of an element in a list. -/
def cnt {α : Type} [DecidableEq α] (x : α) : List α → Nat
  | [] => 0
  | y :: t => (if y = x then 1 else 0) + cnt x t

/-- Remove the first occurrence of an element, or fail when it is absent:
the behaviour of Python list.remove. -/
def removeFirst {α : Type} [DecidableEq α] : List α → α → Option (List α)
  | [], _ => none
  | y :: t, x => if y = x then some t else (removeFirst t x).map (fun t2 => y :: t2)

/-- Last element of a list satisfying a predicate. -/
def lastWith {α : Type} (p : α → Bool) : List α → Option α
  | [] => none
  | y :: t =>
    match lastWith p t with
    | some z => some z
    | none => if p y then some y else none

/-- Boolean list membership. -/
def valMem {α : Type} [DecidableEq α] (x : α) : List α → Bool
  | [] => false
  | y :: t => if y = x then true else valMem x t

/-- Field values stored in documents. -/
inductive Value where
  | str (s : String)
  | nat (n : Nat)
  deriving DecidableEq, Repr

/-- A document: an ordered mapping from field name to value, plus the
optional per-document unique-attribute override carried as an object
attribute in the source (consulted by getattr). -/
structure Document where
  fields : List (String × Value)
  uniqueAttrOverride : Option String
  deriving DecidableEq, Repr

/-- Read a field of a document, none when absent (a Python KeyError site). -/
def Document.get (d : Document) (k : String) : Option Value :=
  alistLookup d.fields k

/-- Key-membership test, the Python expression: key in document. -/
def Document.hasKey (d : Document) (k : String) : Bool :=
  (alistLookup d.fields k).isSome

/-- Field assignment on a document, the Python statement document[k] = v. -/
def Document.set (d : Document) (k : String) (v : Value) : Document :=
  { d with fields := alistInsert d.fields k v }

/-- Errors raised by the modelled operations. -/
inductive DbError where
  | keyError (k : String)
  | findFailed (attr : String)
  | valueError
  deriving DecidableEq, Repr

/-- Calls issued against the collection handle. -/
inductive DbOp where
  | find (attr : String) (vals : List Value)
  | insert (docs : List Document)
  | save (doc : Document)
  deriving DecidableEq, Repr

/-- True exactly on find events. -/
def DbOp.isFind : DbOp → Bool
  | DbOp.find _ _ => true
  | _ => false

/-- The collection handle: remote documents served by find, plus the set of
attribute names on which a find query raises. -/
structure Collection where
  remote : List Document
  failing : List String
  deriving DecidableEq, Repr

/-- The find call of the collection handle, for a spec of the form
attr in set-of-values (projection does not change the modelled result). -/
def Collection.find (c : Collection) (attr : String) (vals : List Value) :
    Except DbError (List Document) :=
  if valMem attr c.failing then Except.error (DbError.findFailed attr)
  else Except.ok (c.remote.filter (fun dd =>
    match dd.get attr with
    | some v => valMem v vals
    | none => false))

/-- Effective unique-attribute field name of a document: the per-document
override when the attribute is present, the buffer default otherwise, and
none when the resulting Python value is falsy (absent or empty). -/
def truthyUnique (d : Document) (default : Option String) : Option String :=
  match d.uniqueAttrOverride with
  | some s => if s = "" then none else some s
  | none =>
    match default with
    | some s => if s = "" then none else some s
    | none => none

/-- The lookups table built by the first loop of the flush body: attribute
name to (value to document), with Python setdefault and assignment
semantics. -/
def lookupsAdd (L : List (String × List (Value × Document))) (a : String)
    (v : Value) (d : Document) : List (String × List (Value × Document)) :=
  alistInsert L a (alistInsert ((alistLookup L a).getD []) v d)

/-- First loop of the flush body: walk the pending inserts, and for each one
with a truthy effective unique attribute, read that field (KeyError when
absent) and record it in the lookups table. -/
def buildLookupsAux (default : Option String) :
    List Document → List (String × List (Value × Document)) →
    Except DbError (List (String × List (Value × Document)))
  | [], acc => Except.ok acc
  | d :: t, acc =>
    match truthyUnique d default with
    | none => buildLookupsAux default t acc
    | some a =>
      match d.get a with
      | none => Except.error (DbError.keyError a)
      | some v => buildLookupsAux default t (lookupsAdd acc a v d)

/-- The lookups table of a flush, from an empty table. -/
def buildLookups (default : Option String) (docs : List Document) :
    Except DbError (List (String × List (Value × Document))) :=
  buildLookupsAux default docs []

/-- Projection of one find result batch into (unique value, identity) pairs,
in order; reading a missing field raises KeyError as in the source
comprehension. -/
def projectPairs (attr : String) : List Document → Except DbError (List (Value × Value))
  | [] => Except.ok []
  | dd :: t =>
    match dd.get attr with
    | none => Except.error (DbError.keyError attr)
    | some v =>
      match dd.get "_id" with
      | none => Except.error (DbError.keyError "_id")
      | some i =>
        match projectPairs attr t with
        | Except.error e => Except.error e
        | Except.ok ps => Except.ok ((v, i) :: ps)

/-- The dict built from the projected pairs: later pairs overwrite earlier
ones with the same unique value. -/
def pairsDict (ps : List (Value × Value)) : List (Value × Value) :=
  ps.foldl (fun acc p => alistInsert acc p.1 p.2) []

/-- Second loop of the flush body: one find query per entry of the lookups
table; returns the results table, the trace of find calls issued, and the
error of the first failing query or projection if any. -/
def runQueries (c : Collection) :
    List (String × List (Value × Document)) →
    (List (String × List (Value × Value)) × List DbOp × Option DbError)
  | [] => ([], [], none)
  | (a, m) :: t =>
    match c.find a (m.map Prod.fst) with
    | Except.error e => ([], [DbOp.find a (m.map Prod.fst)], some e)
    | Except.ok docs =>
      match projectPairs a docs with
      | Except.error e => ([], [DbOp.find a (m.map Prod.fst)], some e)
      | Except.ok ps =>
        match runQueries c t with
        | (rs, tr, err) => ((a, pairsDict ps) :: rs, DbOp.find a (m.map Prod.fst) :: tr, err)

/-- One reconciliation move: look the matched document up in the lookups
table, remove it from the pending inserts (ValueError when absent), attach
the remote identity and append it to the pending updates. -/
def moveOne (L : List (String × List (Value × Document))) (k : String)
    (v i : Value) (ins upd : List Document) :
    (List Document × List Document × Option DbError) :=
  match alistLookup L k with
  | none => (ins, upd, some (DbError.keyError k))
  | some m =>
    match alistLookup m v with
    | none => (ins, upd, some (DbError.keyError k))
    | some doc =>
      match removeFirst ins doc with
      | none => (ins, upd, some DbError.valueError)
      | some ins2 => (ins2, upd ++ [doc.set "_id" i], none)

/-- Inner loop of the third phase: the moves for one results entry. -/
def applyMovesInner (L : List (String × List (Value × Document))) (k : String) :
    List (Value × Value) → List Document → List Document →
    (List Document × List Document × Option DbError)
  | [], ins, upd => (ins, upd, none)
  | (v, i) :: t, ins, upd =>
    match moveOne L k v i ins upd with
    | (ins2, upd2, some e) => (ins2, upd2, some e)
    | (ins2, upd2, none) => applyMovesInner L k t ins2 upd2

/-- Third phase of the flush body: apply the moves of every results entry,
stopping at the first error with the state reached so far. -/
def applyMoves (L : List (String × List (Value × Document))) :
    List (String × List (Value × Value)) → List Document → List Document →
    (List Document × List Document × Option DbError)
  | [], ins, upd => (ins, upd, none)
  | (k, m) :: t, ins, upd =>
    match applyMovesInner L k m ins upd with
    | (ins2, upd2, some e) => (ins2, upd2, some e)
    | (ins2, upd2, none) => applyMoves L t ins2 upd2

/-- Flattened triples of a results table, in processing order. -/
def triplesOf : List (String × List (Value × Value)) → List (String × Value × Value)
  | [] => []
  | (k, m) :: t => m.map (fun p => (k, p.1, p.2)) ++ triplesOf t

/-- The moves as a single fold over the flattened triples. -/
def movesFold (L : List (String × List (Value × Document))) :
    List (String × Value × Value) → List Document → List Document →
    (List Document × List Document × Option DbError)
  | [], ins, upd => (ins, upd, none)
  | (k, v, i) :: t, ins, upd =>
    match moveOne L k v i ins upd with
    | (ins2, upd2, some e) => (ins2, upd2, some e)
    | (ins2, upd2, none) => movesFold L t ins2 upd2

/-- The buffer state of class BulkUpdater. -/
structure BulkUpdater where
  unique_attr : Option String
  threshold : Int
  total : Nat
  updates : List Document
  inserts : List Document
  insertedCount : Nat
  updatedCount : Nat
  deriving DecidableEq, Repr

/-- The constructor's state: empty lists, zero total and counters. -/
def BulkUpdater.init (threshold : Int) (unique_attr : Option String) : BulkUpdater :=
  ⟨unique_attr, threshold, 0, [], [], 0, 0⟩

/-- The flush body (method _flush): build the lookups table, run one query
per distinct unique attribute, move the matched documents from inserts to
updates with the remote identity attached, bulk-insert the remainder, save
each update, then clear the lists and add their final sizes to the lifetime
counters (method _clear). On an error the state reached so far is kept and
the error propagates. -/
def BulkUpdater.flushCore (b : BulkUpdater) (c : Collection) :
    BulkUpdater × List DbOp × Option DbError :=
  match buildLookups b.unique_attr b.inserts with
  | Except.error e => (b, [], some e)
  | Except.ok L =>
    match runQueries c L with
    | (_, tr, some e) => (b, tr, some e)
    | (rs, tr, none) =>
      match applyMoves L rs b.inserts b.updates with
      | (ins2, upd2, some e) => ({ b with inserts := ins2, updates := upd2 }, tr, some e)
      | (ins2, upd2, none) =>
        ({ b with
            inserts := []
            updates := []
            total := 0
            insertedCount := b.insertedCount + ins2.length
            updatedCount := b.updatedCount + upd2.length },
          tr ++ (if ins2.isEmpty then [] else [DbOp.insert ins2]) ++ upd2.map DbOp.save,
          none)

/-- The public flush method: a no-op when the total is below the threshold
and force is false, the flush body otherwise. The third component counts
executions of the flush body. -/
def BulkUpdater.flush (b : BulkUpdater) (c : Collection) (force : Bool) :
    BulkUpdater × List DbOp × Nat × Option DbError :=
  if (b.total : Int) < b.threshold ∧ force = false then (b, [], 0, none)
  else
    match b.flushCore c with
    | (b2, tr, e) => (b2, tr, 1, e)

/-- Classification and append of one document inside update: a document
with an identity field goes to the updates list, any other to the inserts
list; the total grows by one. -/
def BulkUpdater.appendDoc (b : BulkUpdater) (d : Document) : BulkUpdater :=
  if d.hasKey "_id" then
    { b with updates := b.updates ++ [d], total := b.total + 1 }
  else
    { b with inserts := b.inserts ++ [d], total := b.total + 1 }

/-- One iteration of the update loop: append and classify the document,
then trigger a non-forced flush when the total has reached the threshold. -/
def BulkUpdater.updateOne (b : BulkUpdater) (c : Collection) (d : Document) :
    BulkUpdater × List DbOp × Nat × Option DbError :=
  let b2 := b.appendDoc d
  if (b2.total : Int) ≥ b2.threshold then b2.flush c false
  else (b2, [], 0, none)

/-- The public update method over a list of documents; an error raised by a
triggered flush propagates and stops the loop. -/
def BulkUpdater.update (b : BulkUpdater) (c : Collection) :
    List Document → BulkUpdater × List DbOp × Nat × Option DbError
  | [] => (b, [], 0, none)
  | d :: t =>
    match b.updateOne c d with
    | (b2, tr, n, some e) => (b2, tr, n, some e)
    | (b2, tr, n, none) =>
      match b2.update c t with
      | (b3, tr2, n2, e2) => (b3, tr ++ tr2, n + n2, e2)

/-- Public operations of the buffer, for reachability statements. -/
inductive BufOp where
  | upd (docs : List Document)
  | flush (force : Bool)

/-- Successor state of one public operation (the error, trace and count are
dropped: only the buffer state is tracked). -/
def runOp (c : Collection) (b : BulkUpdater) : BufOp → BulkUpdater
  | BufOp.upd docs => (b.update c docs).1
  | BufOp.flush f => (b.flush c f).1

/-- Successor state of a sequence of public operations. -/
def runOps (c : Collection) (b : BulkUpdater) : List BufOp → BulkUpdater
  | [] => b
  | op :: t => runOps c (runOp c b op) t

/-- Two-level lookup in the lookups or results table. -/
def alistLookup2 {α β γ : Type} [DecidableEq α] [DecidableEq β]
    (L : List (α × List (β × γ))) (k : α) (v : β) : Option γ :=
  match alistLookup L k with
  | none => none
  | some m => alistLookup m v

/-- Test whether a document has effective unique attribute a with value v. -/
def pAV (default : Option String) (a : String) (v : Value) (dd : Document) : Bool :=
  decide (truthyUnique dd default = some a) && decide (dd.get a = some v)

/-- Payload of a successful find call. -/
def findPure (c : Collection) (attr : String) (vals : List Value) : List Document :=
  c.remote.filter (fun dd =>
    match dd.get attr with
    | some v => valMem v vals
    | none => false)

/-- Payload of a successful projection of a find result batch. -/
def projPure (attr : String) (docs : List Document) : List (Value × Value) :=
  docs.filterMap (fun dd =>
    match dd.get attr, dd.get "_id" with
    | some v, some i => some (v, i)
    | _, _ => none)

/-- The moved documents of a successful reconciliation pass, one per
processed (attribute, value, identity) triple. -/
def movedOf (L : List (String × List (Value × Document)))
    (ts : List (String × Value × Value)) : List Document :=
  ts.filterMap (fun t => (alistLookup2 L t.1 t.2.1).map (fun dd => dd.set "_id" t.2.2))

/-- Sample documents and collections used by the concrete witnesses. -/
def docA : Document := ⟨[("email", Value.str "a"), ("name", Value.str "A")], none⟩

def docB : Document := ⟨[("email", Value.str "b"), ("name", Value.str "B")], none⟩

def docA2 : Document := ⟨[("email", Value.str "a"), ("name", Value.str "A2")], none⟩

def docId : Document := ⟨[("_id", Value.nat 1), ("name", Value.str "B")], none⟩

def docNoEmail : Document := ⟨[("name", Value.str "x")], none⟩

def remoteA : Document := ⟨[("email", Value.str "a"), ("_id", Value.nat 7)], none⟩

def emptyColl : Collection := ⟨[], []⟩

def collA : Collection := ⟨[remoteA], []⟩

def collFail : Collection := ⟨[remoteA], ["email"]⟩

def docD1 : Document := ⟨[("email", Value.str "a"), ("name", Value.str "D1")], none⟩

def docD2 : Document := ⟨[("email", Value.str "a"), ("name", Value.str "D2")], none⟩

/-- Buffer holding one pending insert that lacks the default unique field. -/
def bufMissing : BulkUpdater := ⟨some "email", 100, 1, [], [docNoEmail], 0, 0⟩

/-- Buffer holding one pending insert with an email value. -/
def bufA : BulkUpdater := ⟨some "email", 100, 1, [], [docA], 0, 0⟩

/-- Buffer holding one pending insert whose email value exists remotely. -/
def bufA2 : BulkUpdater := ⟨some "email", 100, 1, [], [docA2], 0, 0⟩

/-- Buffer holding two pending inserts sharing the same email value. -/
def bufD : BulkUpdater := ⟨some "email", 100, 2, [], [docD1, docD2], 0, 0⟩

/-- The document docA after the remote identity has been attached. -/
def docASaved : Document :=
  ⟨[("email", Value.str "a"), ("name", Value.str "A"), ("_id", Value.nat 7)], none⟩

/-- The buffer bufA after a successful flush against collA. -/
def bufAFlushed : BulkUpdater := ⟨some "email", 100, 0, [], [], 0, 1⟩

/-- The document docA2 after the remote identity has been attached. -/
def docA2Saved : Document :=
  ⟨[("email", Value.str "a"), ("name", Value.str "A2"), ("_id", Value.nat 7)], none⟩

/-- The buffer bufA2 after a successful flush against collA. -/
def bufA2Flushed : BulkUpdater := ⟨some "email", 100, 0, [], [], 0, 1⟩

/-- The document docD2 after the remote identity has been attached. -/
def docD2Saved : Document :=
  ⟨[("email", Value.str "a"), ("name", Value.str "D2"), ("_id", Value.nat 7)], none⟩

/-- The buffer bufD after a successful flush against collA. -/
def bufDFlushed : BulkUpdater := ⟨some "email", 100, 0, [], [], 1, 1⟩

/-! ## Basic lemmas on the list kit -/

theorem valMem_iff_mem {α : Type} [DecidableEq α] (x : α) (l : List α) :
    valMem x l = true ↔ x ∈ l := by
  induction l with
  | nil => simp [valMem]
  | cons y t ih =>
    simp only [valMem, List.mem_cons]
    by_cases h : y = x
    · subst h; simp
    · simp only [if_neg h, ih]
      constructor
      · exact Or.inr
      · rintro (h2 | h2)
        · exact absurd h2.symm h
        · exact h2

theorem alistLookup_alistInsert {α β : Type} [DecidableEq α]
    (l : List (α × β)) (k k2 : α) (x : β) :
    alistLookup (alistInsert l k x) k2 = if k = k2 then some x else alistLookup l k2 := by
  induction l with
  | nil => simp [alistLookup, alistInsert]
  | cons p t ih =>
    obtain ⟨a, b⟩ := p
    by_cases h : a = k
    · subst h
      by_cases h2 : a = k2 <;> simp [alistInsert, alistLookup, h2]
    · by_cases h2 : a = k2
      · subst h2
        have : ¬ k = a := fun h3 => h h3.symm
        simp [alistInsert, alistLookup, h, this]
      · simp [alistInsert, alistLookup, h, h2, ih]

theorem alistLookup_mem {α β : Type} [DecidableEq α]
    {l : List (α × β)} {k : α} {v : β} (h : alistLookup l k = some v) : (k, v) ∈ l := by
  induction l with
  | nil => simp [alistLookup] at h
  | cons p t ih =>
    obtain ⟨a, b⟩ := p
    by_cases h2 : a = k
    · subst h2
      simp [alistLookup] at h
      subst h
      simp
    · simp [alistLookup, h2] at h
      exact List.mem_cons_of_mem _ (ih h)

theorem mem_keys_of_mem {α β : Type} {l : List (α × β)} {k : α} {v : β}
    (h : (k, v) ∈ l) : k ∈ l.map Prod.fst := by
  exact List.mem_map.mpr ⟨(k, v), h, rfl⟩

theorem alistLookup_of_mem_nodup {α β : Type} [DecidableEq α]
    {l : List (α × β)} {k : α} {v : β} (hn : (l.map Prod.fst).Nodup)
    (h : (k, v) ∈ l) : alistLookup l k = some v := by
  induction l with
  | nil => simp at h
  | cons p t ih =>
    obtain ⟨a, b⟩ := p
    simp only [List.map_cons, List.nodup_cons] at hn
    rcases List.mem_cons.mp h with h1 | h1
    · have hk : k = a := congrArg Prod.fst h1
      have hv : v = b := congrArg Prod.snd h1
      subst hk
      subst hv
      simp [alistLookup]
    · have hk : ¬ a = k := by
        intro he
        subst he
        exact hn.1 (mem_keys_of_mem h1)
      simp only [alistLookup, if_neg hk]
      exact ih hn.2 h1

theorem keys_mem_alistInsert {α β : Type} [DecidableEq α]
    (l : List (α × β)) (k k2 : α) (x : β) :
    k2 ∈ (alistInsert l k x).map Prod.fst ↔ k2 = k ∨ k2 ∈ l.map Prod.fst := by
  induction l with
  | nil => simp [alistInsert]
  | cons p t ih =>
    obtain ⟨a, b⟩ := p
    by_cases h : a = k
    · subst h
      simp only [alistInsert, if_true, eq_self_iff_true, List.map_cons, List.mem_cons]
      tauto
    · simp only [alistInsert, if_neg h, List.map_cons, List.mem_cons, ih]
      tauto

theorem keys_nodup_alistInsert {α β : Type} [DecidableEq α]
    (l : List (α × β)) (k : α) (x : β) (hn : (l.map Prod.fst).Nodup) :
    ((alistInsert l k x).map Prod.fst).Nodup := by
  induction l with
  | nil => simp [alistInsert]
  | cons p t ih =>
    obtain ⟨a, b⟩ := p
    simp only [List.map_cons, List.nodup_cons] at hn
    by_cases h : a = k
    · subst h
      simpa [alistInsert] using hn
    · simp only [alistInsert, if_neg h, List.map_cons, List.nodup_cons]
      refine ⟨fun hmem => ?_, ih hn.2⟩
      rcases (keys_mem_alistInsert t k a x).mp hmem with h2 | h2
      · exact h h2
      · exact hn.1 h2

theorem cnt_eq_zero_iff {α : Type} [DecidableEq α] (x : α) (l : List α) :
    cnt x l = 0 ↔ x ∉ l := by
  induction l with
  | nil => simp [cnt]
  | cons y t ih =>
    simp only [cnt, List.mem_cons]
    by_cases h : y = x
    · subst h; simp
    · simp only [if_neg h, Nat.zero_add, ih]
      constructor
      · intro h2
        rintro (h3 | h3)
        · exact h h3.symm
        · exact h2 h3
      · intro h2 h3
        exact h2 (Or.inr h3)

theorem cnt_pos_of_mem {α : Type} [DecidableEq α] {x : α} {l : List α}
    (h : x ∈ l) : 0 < cnt x l := by
  rcases Nat.eq_zero_or_pos (cnt x l) with h2 | h2
  · exact absurd h ((cnt_eq_zero_iff x l).mp h2)
  · exact h2

theorem mem_of_cnt_pos {α : Type} [DecidableEq α] {x : α} {l : List α}
    (h : 0 < cnt x l) : x ∈ l := by
  by_contra h2
  rw [(cnt_eq_zero_iff x l).mpr h2] at h
  exact Nat.lt_irrefl 0 h

theorem cnt_append {α : Type} [DecidableEq α] (x : α) (l1 l2 : List α) :
    cnt x (l1 ++ l2) = cnt x l1 + cnt x l2 := by
  induction l1 with
  | nil => simp [cnt]
  | cons y t ih => simp [cnt, ih]; omega

theorem cnt_map_inj {α β : Type} [DecidableEq α] [DecidableEq β]
    {f : α → β} (hf : Function.Injective f) (x : α) (l : List α) :
    cnt (f x) (l.map f) = cnt x l := by
  induction l with
  | nil => simp [cnt]
  | cons y t ih =>
    simp only [List.map_cons, cnt, ih]
    by_cases h : y = x
    · subst h; simp
    · have : ¬ f y = f x := fun h2 => h (hf h2)
      simp [h, this]

theorem removeFirst_cnt_self {α : Type} [DecidableEq α] {l l2 : List α} {x : α}
    (h : removeFirst l x = some l2) : cnt x l = cnt x l2 + 1 := by
  induction l generalizing l2 with
  | nil => simp [removeFirst] at h
  | cons y t ih =>
    by_cases h2 : y = x
    · subst h2
      simp [removeFirst] at h
      subst h
      simp [cnt]
      omega
    · simp only [removeFirst, if_neg h2, Option.map_eq_some'] at h
      obtain ⟨t2, ht2, he⟩ := h
      subst he
      simp [cnt, h2, ih ht2]

theorem removeFirst_cnt_other {α : Type} [DecidableEq α] {l l2 : List α} {x y : α}
    (hne : ¬ y = x) (h : removeFirst l x = some l2) : cnt y l = cnt y l2 := by
  induction l generalizing l2 with
  | nil => simp [removeFirst] at h
  | cons z t ih =>
    by_cases h2 : z = x
    · subst h2
      simp [removeFirst] at h
      subst h
      simp [cnt, if_neg (fun h3 : z = y => hne h3.symm)]
    · simp only [removeFirst, if_neg h2, Option.map_eq_some'] at h
      obtain ⟨t2, ht2, he⟩ := h
      subst he
      simp [cnt, ih ht2]

theorem removeFirst_length {α : Type} [DecidableEq α] {l l2 : List α} {x : α}
    (h : removeFirst l x = some l2) : l.length = l2.length + 1 := by
  induction l generalizing l2 with
  | nil => simp [removeFirst] at h
  | cons y t ih =>
    by_cases h2 : y = x
    · subst h2
      simp [removeFirst] at h
      subst h
      simp
    · simp only [removeFirst, if_neg h2, Option.map_eq_some'] at h
      obtain ⟨t2, ht2, he⟩ := h
      subst he
      simp [ih ht2]

theorem lastWith_mem {α : Type} {p : α → Bool} {l : List α} {y : α}
    (h : lastWith p l = some y) : y ∈ l ∧ p y = true := by
  induction l with
  | nil => simp [lastWith] at h
  | cons z t ih =>
    simp only [lastWith] at h
    rcases h2 : lastWith p t with _ | w
    · rw [h2] at h
      by_cases h3 : p z
      · simp [h3] at h
        subst h
        exact ⟨List.mem_cons_self _ _, h3⟩
      · simp [h3] at h
    · rw [h2] at h
      simp at h
      subst h
      obtain ⟨hm, hp⟩ := ih h2
      exact ⟨List.mem_cons_of_mem _ hm, hp⟩

theorem lastWith_eq_of_unique {α : Type} {p : α → Bool} {l : List α} {d : α}
    (hu : ∀ x ∈ l, p x = true → x = d) (hm : d ∈ l) (hp : p d = true) :
    lastWith p l = some d := by
  induction l with
  | nil => simp at hm
  | cons z t ih =>
    simp only [lastWith]
    rcases h2 : lastWith p t with _ | w
    · rcases List.mem_cons.mp hm with h3 | h3
      · subst h3
        simp [hp]
      · have := ih (fun x hx hpx => hu x (List.mem_cons_of_mem _ hx) hpx) h3
        rw [this] at h2
        exact absurd h2 (by simp)
    · obtain ⟨hwm, hwp⟩ := lastWith_mem h2
      have : w = d := hu w (List.mem_cons_of_mem _ hwm) hwp
      subst this
      rfl

/-! ## Lemmas on the lookups table construction -/

theorem alistLookup2_lookupsAdd (L : List (String × List (Value × Document)))
    (a k : String) (v w : Value) (d : Document) :
    alistLookup2 (lookupsAdd L a v d) k w =
      if a = k ∧ v = w then some d else alistLookup2 L k w := by
  by_cases h : a = k
  · subst h
    rcases h3 : alistLookup L a with _ | m
    · by_cases h2 : v = w
      · subst h2
        simp [alistLookup2, lookupsAdd, alistLookup_alistInsert, alistInsert, alistLookup, h3]
      · simp [alistLookup2, lookupsAdd, alistLookup_alistInsert, alistInsert, alistLookup, h3, h2]
    · by_cases h2 : v = w
      · subst h2
        simp [alistLookup2, lookupsAdd, alistLookup_alistInsert, h3]
      · simp [alistLookup2, lookupsAdd, alistLookup_alistInsert, h3, h2]
  · simp [alistLookup2, lookupsAdd, alistLookup_alistInsert, h,
      fun hc : a = k ∧ v = w => h hc.1]

theorem keys_nodup_lookupsAdd (L : List (String × List (Value × Document)))
    (a : String) (v : Value) (d : Document) (hn : (L.map Prod.fst).Nodup) :
    ((lookupsAdd L a v d).map Prod.fst).Nodup :=
  keys_nodup_alistInsert L a _ hn

theorem keys_mem_lookupsAdd (L : List (String × List (Value × Document)))
    (a k : String) (v : Value) (d : Document) :
    k ∈ (lookupsAdd L a v d).map Prod.fst ↔ k = a ∨ k ∈ L.map Prod.fst :=
  keys_mem_alistInsert L a k _

theorem buildLookupsAux_keys_nodup (default : Option String) (docs : List Document) :
    ∀ acc L2, ((acc.map Prod.fst).Nodup) →
      buildLookupsAux default docs acc = Except.ok L2 → ((L2.map Prod.fst).Nodup) := by
  induction docs with
  | nil =>
    intro acc L2 hn h
    simp only [buildLookupsAux, Except.ok.injEq] at h
    exact h ▸ hn
  | cons d t ih =>
    intro acc L2 hn h
    simp only [buildLookupsAux] at h
    split at h
    · exact ih acc L2 hn h
    · split at h
      · exact absurd h (by simp)
      · exact ih _ L2 (keys_nodup_lookupsAdd acc _ _ d hn) h

theorem buildLookupsAux_keys (default : Option String) (docs : List Document) :
    ∀ acc L2 k, buildLookupsAux default docs acc = Except.ok L2 →
      (k ∈ L2.map Prod.fst ↔
        k ∈ acc.map Prod.fst ∨ ∃ d ∈ docs, truthyUnique d default = some k) := by
  induction docs with
  | nil =>
    intro acc L2 k h
    simp only [buildLookupsAux, Except.ok.injEq] at h
    subst h
    simp
  | cons d t ih =>
    intro acc L2 k h
    simp only [buildLookupsAux] at h
    rcases h1 : truthyUnique d default with _ | a
    · rw [h1] at h
      simp only [] at h
      rw [ih acc L2 k h]
      simp only [List.mem_cons]
      constructor
      · rintro (h2 | ⟨d2, h3, h4⟩)
        · exact Or.inl h2
        · exact Or.inr ⟨d2, Or.inr h3, h4⟩
      · rintro (h2 | ⟨d2, h3 | h3, h4⟩)
        · exact Or.inl h2
        · subst h3
          rw [h1] at h4
          exact absurd h4 (by simp)
        · exact Or.inr ⟨d2, h3, h4⟩
    · rw [h1] at h
      simp only [] at h
      rcases h2 : d.get a with _ | v
      · rw [h2] at h
        simp only [] at h
        exact absurd h (by simp)
      · rw [h2] at h
        simp only [] at h
        rw [ih _ L2 k h, keys_mem_lookupsAdd]
        simp only [List.mem_cons]
        constructor
        · rintro ((h3 | h3) | ⟨d2, h4, h5⟩)
          · subst h3
            exact Or.inr ⟨d, Or.inl rfl, h1⟩
          · exact Or.inl h3
          · exact Or.inr ⟨d2, Or.inr h4, h5⟩
        · rintro (h3 | ⟨d2, h4 | h4, h5⟩)
          · exact Or.inl (Or.inr h3)
          · subst h4
            rw [h1] at h5
            injection h5 with h5
            exact Or.inl (Or.inl h5.symm)
          · exact Or.inr ⟨d2, h4, h5⟩

theorem buildLookupsAux_lookup2 (default : Option String) (a : String) (v : Value)
    (docs : List Document) :
    ∀ acc L2, buildLookupsAux default docs acc = Except.ok L2 →
      alistLookup2 L2 a v =
        (match lastWith (pAV default a v) docs with
          | some dd => some dd
          | none => alistLookup2 acc a v) := by
  induction docs with
  | nil =>
    intro acc L2 h
    simp only [buildLookupsAux, Except.ok.injEq] at h
    subst h
    simp [lastWith]
  | cons d t ih =>
    intro acc L2 h
    simp only [buildLookupsAux] at h
    rcases h1 : truthyUnique d default with _ | a0
    · rw [h1] at h
      simp only [] at h
      rw [ih acc L2 h]
      have hp : pAV default a v d = false := by
        simp [pAV, h1]
      simp only [lastWith, hp]
      rcases lastWith (pAV default a v) t with _ | z
      · simp
      · simp
    · rw [h1] at h
      simp only [] at h
      rcases h2 : d.get a0 with _ | v0
      · rw [h2] at h
        simp only [] at h
        exact absurd h (by simp)
      · rw [h2] at h
        simp only [] at h
        rw [ih _ L2 h]
        have hcond : pAV default a v d = true ↔ (a0 = a ∧ v0 = v) := by
          simp only [pAV, Bool.and_eq_true, decide_eq_true_eq, h1]
          constructor
          · rintro ⟨h3, h4⟩
            injection h3 with h3
            subst h3
            rw [h2] at h4
            injection h4 with h4
            exact ⟨rfl, h4⟩
          · rintro ⟨h3, h4⟩
            subst h3
            rw [h2]
            exact ⟨rfl, by rw [h4]⟩
        simp only [lastWith]
        rcases lastWith (pAV default a v) t with _ | z
        · rw [alistLookup2_lookupsAdd]
          by_cases h3 : a0 = a ∧ v0 = v
          · rw [if_pos h3, if_pos (hcond.mpr h3)]
          · rw [if_neg h3]
            have : ¬ pAV default a v d = true := fun hc => h3 (hcond.mp hc)
            simp only [Bool.not_eq_true] at this
            rw [this]
            simp
        · simp

theorem buildLookupsAux_doc_char (default : Option String) (I : List Document)
    (docs : List Document) :
    ∀ acc L2,
      (∀ k v dd, alistLookup2 acc k v = some dd →
        dd ∈ I ∧ truthyUnique dd default = some k ∧ dd.get k = some v) →
      (∀ d ∈ docs, d ∈ I) →
      buildLookupsAux default docs acc = Except.ok L2 →
      (∀ k v dd, alistLookup2 L2 k v = some dd →
        dd ∈ I ∧ truthyUnique dd default = some k ∧ dd.get k = some v) := by
  induction docs with
  | nil =>
    intro acc L2 hacc _ h
    simp only [buildLookupsAux, Except.ok.injEq] at h
    subst h
    exact hacc
  | cons d t ih =>
    intro acc L2 hacc hsub h
    simp only [buildLookupsAux] at h
    rcases h1 : truthyUnique d default with _ | a0
    · rw [h1] at h
      simp only [] at h
      exact ih acc L2 hacc (fun d2 hd2 => hsub d2 (List.mem_cons_of_mem _ hd2)) h
    · rw [h1] at h
      simp only [] at h
      rcases h2 : d.get a0 with _ | v0
      · rw [h2] at h
        simp only [] at h
        exact absurd h (by simp)
      · rw [h2] at h
        simp only [] at h
        refine ih _ L2 ?_ (fun d2 hd2 => hsub d2 (List.mem_cons_of_mem _ hd2)) h
        intro k v dd hl
        rw [alistLookup2_lookupsAdd] at hl
        by_cases h3 : a0 = k ∧ v0 = v
        · rw [if_pos h3] at hl
          injection hl with hl
          subst hl
          obtain ⟨h4, h5⟩ := h3
          subst h4
          subst h5
          exact ⟨hsub d (List.mem_cons_self _ _), h1, h2⟩
        · rw [if_neg h3] at hl
          exact hacc k v dd hl

theorem buildLookupsAux_error (default : Option String) (docs : List Document)
    (a : String) (d : Document) (hd : d ∈ docs)
    (ht : truthyUnique d default = some a) (hg : d.get a = none) :
    ∀ acc, ∃ k, buildLookupsAux default docs acc = Except.error (DbError.keyError k) := by
  induction docs with
  | nil => simp at hd
  | cons d0 t ih =>
    intro acc
    rcases List.mem_cons.mp hd with h1 | h1
    · subst h1
      refine ⟨a, ?_⟩
      simp only [buildLookupsAux, ht, hg]
    · rcases h2 : truthyUnique d0 default with _ | a0
      · obtain ⟨k, hk⟩ := ih h1 acc
        exact ⟨k, by simp only [buildLookupsAux, h2]; exact hk⟩
      · rcases h3 : d0.get a0 with _ | v0
        · exact ⟨a0, by simp only [buildLookupsAux, h2, h3]⟩
        · obtain ⟨k, hk⟩ := ih h1 (lookupsAdd acc a0 v0 d0)
          exact ⟨k, by simp only [buildLookupsAux, h2, h3]; exact hk⟩

/-! ## Lemmas on the query phase -/

theorem find_ok {c : Collection} {attr : String} (vals : List Value)
    (h : valMem attr c.failing = false) :
    c.find attr vals = Except.ok (findPure c attr vals) := by
  simp [Collection.find, findPure, h]

theorem find_err {c : Collection} {attr : String} (vals : List Value)
    (h : valMem attr c.failing = true) :
    c.find attr vals = Except.error (DbError.findFailed attr) := by
  simp [Collection.find, h]

theorem find_ok_inv {c : Collection} {attr : String} {vals : List Value}
    {docs : List Document} (h : c.find attr vals = Except.ok docs) :
    valMem attr c.failing = false ∧ docs = findPure c attr vals := by
  by_cases h2 : valMem attr c.failing
  · rw [find_err vals h2] at h
    exact absurd h (by simp)
  · have h2f : valMem attr c.failing = false := eq_false_of_ne_true h2
    rw [find_ok vals h2f] at h
    injection h with h
    exact ⟨h2f, h.symm⟩

theorem projectPairs_ok {attr : String} {docs : List Document}
    {ps : List (Value × Value)} (h : projectPairs attr docs = Except.ok ps) :
    ps = projPure attr docs := by
  induction docs generalizing ps with
  | nil =>
    simp only [projectPairs, Except.ok.injEq] at h
    subst h
    simp [projPure]
  | cons dd t ih =>
    simp only [projectPairs] at h
    rcases h1 : dd.get attr with _ | v
    · rw [h1] at h
      simp only [] at h
      exact absurd h (by simp)
    · rw [h1] at h
      simp only [] at h
      rcases h2 : dd.get "_id" with _ | i
      · rw [h2] at h
        simp only [] at h
        exact absurd h (by simp)
      · rw [h2] at h
        simp only [] at h
        rcases h3 : projectPairs attr t with e | ps2
        · rw [h3] at h
          simp only [] at h
          exact absurd h (by simp)
        · rw [h3] at h
          simp only [] at h
          injection h with h
          subst h
          rw [ih h3]
          show (v, i) :: projPure attr t = projPure attr (dd :: t)
          simp [projPure, List.filterMap_cons, h1, h2]

theorem runQueries_ok {c : Collection} {L : List (String × List (Value × Document))}
    {rs : List (String × List (Value × Value))} {tr : List DbOp}
    (h : runQueries c L = (rs, tr, none)) :
    rs = L.map (fun e => (e.1, pairsDict (projPure e.1 (findPure c e.1 (e.2.map Prod.fst))))) ∧
    tr = L.map (fun e => DbOp.find e.1 (e.2.map Prod.fst)) ∧
    ∀ e ∈ L, valMem e.1 c.failing = false := by
  induction L generalizing rs tr with
  | nil =>
    simp only [runQueries, Prod.mk.injEq] at h
    obtain ⟨h1, h2, _⟩ := h
    subst h1
    subst h2
    simp
  | cons e t ih =>
    obtain ⟨a, m⟩ := e
    simp only [runQueries] at h
    rcases h1 : c.find a (m.map Prod.fst) with e0 | docs
    · rw [h1] at h
      simp only [Prod.mk.injEq] at h
      exact absurd h.2.2 (by simp)
    · rw [h1] at h
      simp only [] at h
      obtain ⟨hfail, hdocs⟩ := find_ok_inv h1
      rcases h2 : projectPairs a docs with e0 | ps
      · rw [h2] at h
        simp only [Prod.mk.injEq] at h
        exact absurd h.2.2 (by simp)
      · rw [h2] at h
        simp only [] at h
        rcases h3 : runQueries c t with ⟨rs2, tr2, err2⟩
        rw [h3] at h
        simp only [Prod.mk.injEq] at h
        obtain ⟨hrs, htr, herr⟩ := h
        subst herr
        obtain ⟨ihrs, ihtr, ihfail⟩ := ih h3
        subst ihrs
        subst ihtr
        subst hrs
        subst htr
        refine ⟨?_, ?_, ?_⟩
        · simp only [List.map_cons, List.cons.injEq]
          refine ⟨?_, by simp⟩
          rw [projectPairs_ok h2, hdocs]
        · simp
        · intro e2 he2
          rcases List.mem_cons.mp he2 with h4 | h4
          · subst h4
            exact hfail
          · exact ihfail e2 h4

theorem runQueries_error_of_find {c : Collection}
    {L : List (String × List (Value × Document))} {a : String}
    {m : List (Value × Document)} {e0 : DbError} (hm : (a, m) ∈ L)
    (hf : c.find a (m.map Prod.fst) = Except.error e0) :
    ∃ rs tr e, runQueries c L = (rs, tr, some e) := by
  induction L with
  | nil => simp at hm
  | cons e1 t ih =>
    obtain ⟨a1, m1⟩ := e1
    rcases List.mem_cons.mp hm with h1 | h1
    · have ha : a1 = a := (congrArg Prod.fst h1).symm
      have hm1 : m1 = m := (congrArg Prod.snd h1).symm
      subst ha
      subst hm1
      refine ⟨[], [DbOp.find a1 (m1.map Prod.fst)], e0, ?_⟩
      simp only [runQueries, hf]
    · rcases h2 : c.find a1 (m1.map Prod.fst) with e2 | docs
      · exact ⟨[], [DbOp.find a1 (m1.map Prod.fst)], e2, by simp only [runQueries, h2]⟩
      · rcases h3 : projectPairs a1 docs with e2 | ps
        · exact ⟨[], [DbOp.find a1 (m1.map Prod.fst)], e2, by simp only [runQueries, h2, h3]⟩
        · obtain ⟨rs2, tr2, e2, hrq⟩ := ih h1
          refine ⟨(a1, pairsDict ps) :: rs2, DbOp.find a1 (m1.map Prod.fst) :: tr2, e2, ?_⟩
          simp only [runQueries, h2, h3, hrq]

/-! ## Lemmas on the reconciliation moves -/

theorem moveOne_length (L : List (String × List (Value × Document))) (k : String)
    (v i : Value) (ins upd : List Document) :
    (moveOne L k v i ins upd).1.length + (moveOne L k v i ins upd).2.1.length =
      ins.length + upd.length := by
  rcases h1 : alistLookup L k with _ | m
  · simp [moveOne, h1]
  · rcases h2 : alistLookup m v with _ | doc
    · simp [moveOne, h1, h2]
    · rcases h3 : removeFirst ins doc with _ | ins2
      · simp [moveOne, h1, h2, h3]
      · simp only [moveOne, h1, h2, h3]
        have := removeFirst_length h3
        simp [this]
        omega

theorem moveOne_ok {L : List (String × List (Value × Document))} {k : String}
    {v i : Value} {ins upd ins2 upd2 : List Document}
    (h : moveOne L k v i ins upd = (ins2, upd2, none)) :
    ∃ doc, alistLookup2 L k v = some doc ∧ removeFirst ins doc = some ins2 ∧
      upd2 = upd ++ [doc.set "_id" i] := by
  rcases h1 : alistLookup L k with _ | m
  · simp [moveOne, h1] at h
  · rcases h2 : alistLookup m v with _ | doc
    · simp [moveOne, h1, h2] at h
    · rcases h3 : removeFirst ins doc with _ | ins3
      · simp [moveOne, h1, h2, h3] at h
      · simp only [moveOne, h1, h2, h3, Prod.mk.injEq] at h
        obtain ⟨hi, hu, _⟩ := h
        subst hi
        subst hu
        exact ⟨doc, by simp [alistLookup2, h1, h2], h3, rfl⟩

theorem movesFold_length (L : List (String × List (Value × Document)))
    (ts : List (String × Value × Value)) :
    ∀ ins upd, (movesFold L ts ins upd).1.length + (movesFold L ts ins upd).2.1.length =
      ins.length + upd.length := by
  induction ts with
  | nil => intro ins upd; simp [movesFold]
  | cons t ts2 ih =>
    intro ins upd
    obtain ⟨k, v, i⟩ := t
    rcases h1 : moveOne L k v i ins upd with ⟨ins2, upd2, e⟩
    have hlen : ins2.length + upd2.length = ins.length + upd.length := by
      have := moveOne_length L k v i ins upd
      rw [h1] at this
      exact this
    rcases e with _ | e2
    · simp only [movesFold, h1]
      rw [ih ins2 upd2]
      exact hlen
    · simp only [movesFold, h1]
      exact hlen

theorem movesFold_ok_upd {L : List (String × List (Value × Document))}
    {ts : List (String × Value × Value)} :
    ∀ {ins upd ins2 upd2}, movesFold L ts ins upd = (ins2, upd2, none) →
      upd2 = upd ++ movedOf L ts := by
  induction ts with
  | nil =>
    intro ins upd ins2 upd2 h
    simp only [movesFold, Prod.mk.injEq] at h
    simp [movedOf, ← h.2.1]
  | cons t ts2 ih =>
    intro ins upd ins2 upd2 h
    obtain ⟨k, v, i⟩ := t
    rcases h1 : moveOne L k v i ins upd with ⟨ins3, upd3, e⟩
    rcases e with _ | e2
    · simp only [movesFold, h1] at h
      obtain ⟨doc, hdoc, hrf, hupd⟩ := moveOne_ok h1
      subst hupd
      rw [ih h]
      simp only [movedOf, List.filterMap_cons, hdoc, Option.map_some]
      simp [movedOf]
    · simp only [movesFold, h1, Prod.mk.injEq] at h
      exact absurd h.2.2 (by simp)

theorem movesFold_ok_cnt {L : List (String × List (Value × Document))}
    {ts : List (String × Value × Value)} :
    ∀ {ins upd ins2 upd2}, movesFold L ts ins upd = (ins2, upd2, none) →
      ∀ x : Document, cnt x ins = cnt x ins2 +
        (ts.filter (fun t => decide (alistLookup2 L t.1 t.2.1 = some x))).length := by
  induction ts with
  | nil =>
    intro ins upd ins2 upd2 h x
    simp only [movesFold, Prod.mk.injEq] at h
    simp [← h.1]
  | cons t ts2 ih =>
    intro ins upd ins2 upd2 h x
    obtain ⟨k, v, i⟩ := t
    rcases h1 : moveOne L k v i ins upd with ⟨ins3, upd3, e⟩
    rcases e with _ | e2
    · simp only [movesFold, h1] at h
      obtain ⟨doc, hdoc, hrf, hupd⟩ := moveOne_ok h1
      have ihx := ih h x
      by_cases hx : doc = x
      · subst hx
        have hc := removeFirst_cnt_self hrf
        have hfc : (((k, v, i) :: ts2).filter
            (fun t => decide (alistLookup2 L t.1 t.2.1 = some doc))).length =
            (ts2.filter (fun t => decide (alistLookup2 L t.1 t.2.1 = some doc))).length + 1 := by
          simp [List.filter_cons, hdoc]
        rw [hfc]
        omega
      · have hc := removeFirst_cnt_other (fun h2 => hx h2.symm) hrf
        have hne : ¬ alistLookup2 L k v = some x := by
          rw [hdoc]
          intro h2
          injection h2 with h2
          exact hx h2
        have hfc : (((k, v, i) :: ts2).filter
            (fun t => decide (alistLookup2 L t.1 t.2.1 = some x))).length =
            (ts2.filter (fun t => decide (alistLookup2 L t.1 t.2.1 = some x))).length := by
          simp [List.filter_cons, hne]
        rw [hfc]
        omega
    · simp only [movesFold, h1, Prod.mk.injEq] at h
      exact absurd h.2.2 (by simp)

theorem applyMovesInner_eq_movesFold (L : List (String × List (Value × Document)))
    (k : String) (m : List (Value × Value)) :
    ∀ ins upd, applyMovesInner L k m ins upd =
      movesFold L (m.map (fun p => (k, p.1, p.2))) ins upd := by
  induction m with
  | nil => intro ins upd; simp [applyMovesInner, movesFold]
  | cons p t ih =>
    intro ins upd
    obtain ⟨v, i⟩ := p
    simp only [applyMovesInner, List.map_cons, movesFold]
    rcases h1 : moveOne L k v i ins upd with ⟨ins2, upd2, e⟩
    rcases e with _ | e2
    · exact ih ins2 upd2
    · rfl

theorem movesFold_append (L : List (String × List (Value × Document)))
    (ts1 ts2 : List (String × Value × Value)) :
    ∀ ins upd, movesFold L (ts1 ++ ts2) ins upd =
      (match movesFold L ts1 ins upd with
        | (i2, u2, some e) => (i2, u2, some e)
        | (i2, u2, none) => movesFold L ts2 i2 u2) := by
  induction ts1 with
  | nil => intro ins upd; simp [movesFold]
  | cons t ts3 ih =>
    intro ins upd
    obtain ⟨k, v, i⟩ := t
    simp only [List.cons_append, movesFold]
    rcases h1 : moveOne L k v i ins upd with ⟨ins2, upd2, e⟩
    rcases e with _ | e2
    · exact ih ins2 upd2
    · rfl

theorem applyMoves_eq_movesFold (L : List (String × List (Value × Document)))
    (rs : List (String × List (Value × Value))) :
    ∀ ins upd, applyMoves L rs ins upd = movesFold L (triplesOf rs) ins upd := by
  induction rs with
  | nil => intro ins upd; simp [applyMoves, triplesOf, movesFold]
  | cons e t ih =>
    intro ins upd
    obtain ⟨k, m⟩ := e
    simp only [applyMoves, triplesOf]
    rw [movesFold_append, ← applyMovesInner_eq_movesFold]
    rcases h1 : applyMovesInner L k m ins upd with ⟨ins2, upd2, e2⟩
    rcases e2 with _ | e3
    · exact ih ins2 upd2
    · rfl

theorem mem_triplesOf {rs : List (String × List (Value × Value))}
    {k : String} {v i : Value} :
    (k, v, i) ∈ triplesOf rs ↔ ∃ m, (k, m) ∈ rs ∧ (v, i) ∈ m := by
  induction rs with
  | nil => simp [triplesOf]
  | cons e t ih =>
    obtain ⟨k0, m0⟩ := e
    simp only [triplesOf, List.mem_append, List.mem_map, ih, List.mem_cons]
    constructor
    · rintro (⟨p, hp, he⟩ | ⟨m, hm, hvi⟩)
      · obtain ⟨hk, hv, hi⟩ : k0 = k ∧ p.1 = v ∧ p.2 = i := by
          refine ⟨congrArg (fun t => t.1) he, congrArg (fun t => t.2.1) he,
            congrArg (fun t => t.2.2) he⟩
        subst hk
        exact ⟨m0, Or.inl rfl, by rw [← hv, ← hi]; exact hp⟩
      · exact ⟨m, Or.inr hm, hvi⟩
    · rintro ⟨m, hm | hm, hvi⟩
      · have hk : k0 = k := (congrArg Prod.fst hm).symm
        have hmm : m0 = m := (congrArg Prod.snd hm).symm
        subst hk
        subst hmm
        exact Or.inl ⟨(v, i), hvi, rfl⟩
      · exact Or.inr ⟨m, hm, hvi⟩

/-! ## Counting lemmas for the results table -/

theorem cnt_zero_of_key_not_mem {α β : Type} [DecidableEq α] [DecidableEq β]
    {l : List (α × β)} {k : α} (x : β) (h : k ∉ l.map Prod.fst) :
    cnt (k, x) l = 0 :=
  (cnt_eq_zero_iff _ _).mpr (fun hmem => h (mem_keys_of_mem hmem))

theorem cnt_of_nodup_keys_mem {α β : Type} [DecidableEq α] [DecidableEq β]
    {l : List (α × β)} {k : α} {x : β} (hn : (l.map Prod.fst).Nodup)
    (hm : (k, x) ∈ l) : cnt (k, x) l = 1 := by
  induction l with
  | nil => simp at hm
  | cons p t ih =>
    obtain ⟨k0, x0⟩ := p
    simp only [List.map_cons, List.nodup_cons] at hn
    rcases List.mem_cons.mp hm with h1 | h1
    · have hk : k = k0 := congrArg Prod.fst h1
      have hx : x = x0 := congrArg Prod.snd h1
      subst hk
      subst hx
      simp only [cnt, if_pos rfl]
      rw [cnt_zero_of_key_not_mem x hn.1]
      simp
    · have hk : ¬ k0 = k := by
        intro he
        subst he
        exact hn.1 (mem_keys_of_mem h1)
      have hne : ¬ (k0, x0) = (k, x) := fun he => hk (congrArg Prod.fst he)
      simp only [cnt, if_neg hne, Nat.zero_add]
      exact ih hn.2 h1

theorem cnt_triplesOf_zero {rs : List (String × List (Value × Value))}
    {k : String} (v i : Value) (h : k ∉ rs.map Prod.fst) :
    cnt (k, v, i) (triplesOf rs) = 0 := by
  refine (cnt_eq_zero_iff _ _).mpr (fun hmem => ?_)
  obtain ⟨m, hm, _⟩ := mem_triplesOf.mp hmem
  exact h (mem_keys_of_mem hm)

theorem cnt_triplesOf_of_nodup {rs : List (String × List (Value × Value))}
    {k : String} {m : List (Value × Value)} (hn : (rs.map Prod.fst).Nodup)
    (hm : (k, m) ∈ rs) (v i : Value) :
    cnt (k, v, i) (triplesOf rs) = cnt (v, i) m := by
  induction rs with
  | nil => simp at hm
  | cons e t ih =>
    obtain ⟨k0, m0⟩ := e
    simp only [List.map_cons, List.nodup_cons] at hn
    simp only [triplesOf]
    rw [cnt_append]
    rcases List.mem_cons.mp hm with h1 | h1
    · have hk : k = k0 := congrArg Prod.fst h1
      have hmm : m = m0 := congrArg Prod.snd h1
      subst hk
      subst hmm
      have hinj : Function.Injective (fun p : Value × Value => (k, p.1, p.2)) := by
        intro p q hpq
        have h2 : p.1 = q.1 := congrArg (fun t : String × Value × Value => t.2.1) hpq
        have h3 : p.2 = q.2 := congrArg (fun t : String × Value × Value => t.2.2) hpq
        exact Prod.ext h2 h3
      have : cnt (k, v, i) (m.map (fun p => (k, p.1, p.2))) = cnt (v, i) m :=
        cnt_map_inj hinj (v, i) m
      rw [this, cnt_triplesOf_zero v i hn.1]
      omega
    · have hk : ¬ k0 = k := by
        intro he
        subst he
        exact hn.1 (mem_keys_of_mem h1)
      have hz : cnt (k, v, i) (m0.map (fun p => (k0, p.1, p.2))) = 0 := by
        refine (cnt_eq_zero_iff _ _).mpr (fun hmem => ?_)
        obtain ⟨p, _, hpe⟩ := List.mem_map.mp hmem
        exact hk (congrArg Prod.fst hpe)
      rw [hz, ih hn.2 h1]
      omega

theorem length_filter_of_unique {α : Type} [DecidableEq α] {p : α → Bool}
    {l : List α} {e : α} (hu : ∀ x ∈ l, p x = true → x = e) (hp : p e = true) :
    (l.filter p).length = cnt e l := by
  induction l with
  | nil => simp [cnt]
  | cons y t ih =>
    have ih2 := ih (fun x hx hpx => hu x (List.mem_cons_of_mem _ hx) hpx)
    by_cases hy : y = e
    · subst hy
      have hf : List.filter p (y :: t) = y :: List.filter p t := by
        simp [List.filter_cons, hp]
      have hc : cnt y (y :: t) = 1 + cnt y t := by
        simp [cnt]
      rw [hf, hc]
      simp only [List.length_cons, ih2]
      omega
    · have hpy : p y = false := by
        rcases h2 : p y with _ | _
        · rfl
        · exact absurd (hu y (List.mem_cons_self _ _) h2) hy
      have hf : List.filter p (y :: t) = List.filter p t := by
        simp [List.filter_cons, hpy]
      have hc : cnt e (y :: t) = cnt e t := by
        simp [cnt, hy]
      rw [hf, hc, ih2]

theorem cnt_filterMap {α β : Type} [DecidableEq α] [DecidableEq β]
    (f : α → Option β) (l : List α) (x : β) :
    cnt x (l.filterMap f) = (l.filter (fun t => decide (f t = some x))).length := by
  induction l with
  | nil => simp [cnt]
  | cons y t ih =>
    rcases h1 : f y with _ | z
    · have hd : decide (f y = some x) = false := by simp [h1]
      have hf : (y :: t).filter (fun t => decide (f t = some x)) =
          t.filter (fun t => decide (f t = some x)) := by
        simp [List.filter_cons, hd]
      rw [List.filterMap_cons, h1, hf]
      exact ih
    · by_cases h2 : z = x
      · subst h2
        have hd : decide (f y = some z) = true := by simp [h1]
        have hf : (y :: t).filter (fun t => decide (f t = some z)) =
            y :: t.filter (fun t => decide (f t = some z)) := by
          simp [List.filter_cons, hd]
        rw [List.filterMap_cons, h1, hf]
        have hc : cnt z (z :: t.filterMap f) = 1 + cnt z (t.filterMap f) := by
          simp [cnt]
        simp only []
        rw [hc, ih]
        simp only [List.length_cons]
        omega
      · have hd : decide (f y = some x) = false := by simp [h1, h2]
        have hf : (y :: t).filter (fun t => decide (f t = some x)) =
            t.filter (fun t => decide (f t = some x)) := by
          simp [List.filter_cons, hd]
        rw [List.filterMap_cons, h1, hf]
        have hc : cnt x (z :: t.filterMap f) = cnt x (t.filterMap f) := by
          simp [cnt, h2]
        simp only []
        rw [hc, ih]

/-! ## Lemmas on the results dict and projections -/

theorem foldl_alistInsert_lookup (ps : List (Value × Value)) :
    ∀ (acc : List (Value × Value)) (v : Value),
      alistLookup (ps.foldl (fun acc p => alistInsert acc p.1 p.2) acc) v =
        (match lastWith (fun p => decide (p.1 = v)) ps with
          | some p => some p.2
          | none => alistLookup acc v) := by
  induction ps with
  | nil =>
    intro acc v
    simp [lastWith]
  | cons p0 t ih =>
    intro acc v
    simp only [List.foldl_cons]
    rw [ih]
    simp only [lastWith]
    rcases h1 : lastWith (fun p => decide (p.1 = v)) t with _ | z
    · rw [h1]
      simp only []
      by_cases h2 : p0.1 = v
      · have hd : decide (p0.1 = v) = true := by simp [h2]
        rw [if_pos hd]
        simp only []
        rw [alistLookup_alistInsert, if_pos h2]
      · have hd : ¬ decide (p0.1 = v) = true := by simp [h2]
        rw [if_neg hd]
        simp only []
        rw [alistLookup_alistInsert, if_neg h2]
    · rw [h1]

theorem alistLookup_pairsDict (ps : List (Value × Value)) (v : Value) :
    alistLookup (pairsDict ps) v =
      (match lastWith (fun p => decide (p.1 = v)) ps with
        | some p => some p.2
        | none => none) := by
  unfold pairsDict
  rw [foldl_alistInsert_lookup]
  rcases h : lastWith (fun p => decide (p.1 = v)) ps with _ | z
  · rw [h]
    simp [alistLookup]
  · rw [h]

theorem foldl_alistInsert_keys_nodup (ps : List (Value × Value)) :
    ∀ acc, ((acc.map Prod.fst).Nodup) →
      (((ps.foldl (fun acc p => alistInsert acc p.1 p.2) acc).map Prod.fst).Nodup) := by
  induction ps with
  | nil => intro acc h; simpa using h
  | cons p0 t ih =>
    intro acc h
    simp only [List.foldl_cons]
    exact ih _ (keys_nodup_alistInsert acc p0.1 p0.2 h)

theorem pairsDict_keys_nodup (ps : List (Value × Value)) :
    (((pairsDict ps).map Prod.fst).Nodup) :=
  foldl_alistInsert_keys_nodup ps [] (by simp)

theorem mem_projPure {attr : String} {docs : List Document} {v i : Value} :
    (v, i) ∈ projPure attr docs ↔
      ∃ dd ∈ docs, dd.get attr = some v ∧ dd.get "_id" = some i := by
  simp only [projPure, List.mem_filterMap]
  constructor
  · rintro ⟨dd, hdd, hf⟩
    rcases h1 : dd.get attr with _ | v2
    · rw [h1] at hf
      simp only [] at hf
      exact absurd hf (by simp)
    · rw [h1] at hf
      rcases h2 : dd.get "_id" with _ | i2
      · rw [h2] at hf
        simp only [] at hf
        exact absurd hf (by simp)
      · rw [h2] at hf
        simp only [Option.some.injEq] at hf
        have hv : v2 = v := congrArg Prod.fst hf
        have hi : i2 = i := congrArg Prod.snd hf
        subst hv
        subst hi
        exact ⟨dd, hdd, h1, h2⟩
  · rintro ⟨dd, hdd, h1, h2⟩
    exact ⟨dd, hdd, by simp [h1, h2]⟩

theorem mem_findPure {c : Collection} {attr : String} {vals : List Value}
    {dd : Document} :
    dd ∈ findPure c attr vals ↔
      dd ∈ c.remote ∧ ∃ v, dd.get attr = some v ∧ valMem v vals = true := by
  simp only [findPure, List.mem_filter]
  constructor
  · rintro ⟨hr, hm⟩
    rcases h1 : dd.get attr with _ | v
    · rw [h1] at hm
      simp only [] at hm
      exact absurd hm (by simp)
    · rw [h1] at hm
      simp only [] at hm
      exact ⟨hr, v, rfl, hm⟩
  · rintro ⟨hr, v, h1, h2⟩
    exact ⟨hr, by simp [h1, h2]⟩

theorem findPure_filter_val {c : Collection} {attr : String} {vals : List Value}
    {V : Value} (hv : valMem V vals = true) :
    (findPure c attr vals).filter (fun rr => decide (rr.get attr = some V)) =
      c.remote.filter (fun rr => decide (rr.get attr = some V)) := by
  unfold findPure
  rw [List.filter_filter]
  apply List.filter_congr
  intro rr _
  rcases h1 : rr.get attr with _ | v
  · simp [h1]
  · by_cases h2 : v = V
    · subst h2
      simp [h1, hv]
    · simp only [h1]
      have hd : decide (some v = some V) = false := by simp [h2]
      simp only [hd]
      simp [h2]

theorem lastWith_projPure_of_unique {attr : String} {docs : List Document}
    {V i : Value} {r : Document}
    (hfilter : docs.filter (fun rr => decide (rr.get attr = some V)) = [r])
    (hid : r.get "_id" = some i) :
    lastWith (fun p => decide (p.1 = V)) (projPure attr docs) = some (V, i) := by
  have hrd : r ∈ docs ∧ r.get attr = some V := by
    have hmem : r ∈ docs.filter (fun rr => decide (rr.get attr = some V)) := by
      rw [hfilter]
      simp
    have h2 := List.mem_filter.mp hmem
    exact ⟨h2.1, of_decide_eq_true h2.2⟩
  apply lastWith_eq_of_unique
  · rintro ⟨v0, i0⟩ hp hdec
    have hv0 : v0 = V := of_decide_eq_true hdec
    subst hv0
    obtain ⟨dd, hdd, hg, hi⟩ := mem_projPure.mp hp
    have hddf : dd ∈ docs.filter (fun rr => decide (rr.get attr = some v0)) :=
      List.mem_filter.mpr ⟨hdd, by simp [hg]⟩
    rw [hfilter] at hddf
    have hddr : dd = r := by simpa using hddf
    subst hddr
    rw [hid] at hi
    injection hi with hi
    rw [hi]
  · exact mem_projPure.mpr ⟨r, hrd.1, hrd.2, hid⟩
  · simp

/-! ## Inversion lemmas for the flush body and the public methods -/

theorem flushCore_build_err {b : BulkUpdater} {c : Collection} {e : DbError}
    (h : buildLookups b.unique_attr b.inserts = Except.error e) :
    b.flushCore c = (b, [], some e) := by
  unfold BulkUpdater.flushCore
  rw [h]

theorem flushCore_query_err {b : BulkUpdater} {c : Collection} {e : DbError}
    {L : List (String × List (Value × Document))}
    {rs : List (String × List (Value × Value))} {tr : List DbOp}
    (hL : buildLookups b.unique_attr b.inserts = Except.ok L)
    (hq : runQueries c L = (rs, tr, some e)) :
    b.flushCore c = (b, tr, some e) := by
  unfold BulkUpdater.flushCore
  rw [hL]
  simp only []
  rw [hq]

theorem flushCore_ok {b b2 : BulkUpdater} {c : Collection} {tr : List DbOp}
    (h : b.flushCore c = (b2, tr, none)) :
    ∃ L rs trf ins2 upd2,
      buildLookups b.unique_attr b.inserts = Except.ok L ∧
      runQueries c L = (rs, trf, none) ∧
      applyMoves L rs b.inserts b.updates = (ins2, upd2, none) ∧
      tr = trf ++ (if ins2.isEmpty then [] else [DbOp.insert ins2]) ++ upd2.map DbOp.save ∧
      b2 = { b with
              inserts := []
              updates := []
              total := 0
              insertedCount := b.insertedCount + ins2.length
              updatedCount := b.updatedCount + upd2.length } := by
  unfold BulkUpdater.flushCore at h
  rcases h1 : buildLookups b.unique_attr b.inserts with e | L
  · rw [h1] at h
    simp only [Prod.mk.injEq] at h
    exact absurd h.2.2 (by simp)
  · rw [h1] at h
    simp only [] at h
    rcases h2 : runQueries c L with ⟨rs, trf, err⟩
    rw [h2] at h
    rcases err with _ | e
    · simp only [] at h
      rcases h3 : applyMoves L rs b.inserts b.updates with ⟨ins2, upd2, merr⟩
      rw [h3] at h
      rcases merr with _ | e
      · simp only [Prod.mk.injEq] at h
        obtain ⟨hb, htr, _⟩ := h
        exact ⟨L, rs, trf, ins2, upd2, rfl, h2, h3, htr.symm, hb.symm⟩
      · simp only [Prod.mk.injEq] at h
        exact absurd h.2.2 (by simp)
    · simp only [Prod.mk.injEq] at h
      exact absurd h.2.2 (by simp)

theorem appendDoc_total (b : BulkUpdater) (d : Document) :
    (b.appendDoc d).total = b.total + 1 := by
  unfold BulkUpdater.appendDoc
  split <;> rfl

theorem appendDoc_threshold (b : BulkUpdater) (d : Document) :
    (b.appendDoc d).threshold = b.threshold := by
  unfold BulkUpdater.appendDoc
  split <;> rfl

theorem appendDoc_counters (b : BulkUpdater) (d : Document) :
    (b.appendDoc d).insertedCount = b.insertedCount ∧
    (b.appendDoc d).updatedCount = b.updatedCount := by
  unfold BulkUpdater.appendDoc
  split <;> exact ⟨rfl, rfl⟩

theorem appendDoc_lists (b : BulkUpdater) (d : Document) :
    (d.hasKey "_id" = true →
      (b.appendDoc d).updates = b.updates ++ [d] ∧ (b.appendDoc d).inserts = b.inserts) ∧
    (d.hasKey "_id" = false →
      (b.appendDoc d).inserts = b.inserts ++ [d] ∧ (b.appendDoc d).updates = b.updates) := by
  unfold BulkUpdater.appendDoc
  constructor
  · intro h
    rw [if_pos h]
    exact ⟨rfl, rfl⟩
  · intro h
    rw [if_neg (by simp [h])]
    exact ⟨rfl, rfl⟩

theorem flush_noop {b : BulkUpdater} (c : Collection)
    (h : (b.total : Int) < b.threshold) :
    b.flush c false = (b, [], 0, none) := by
  unfold BulkUpdater.flush
  rw [if_pos ⟨h, rfl⟩]

theorem flush_go {b b2 : BulkUpdater} {c : Collection} {force : Bool}
    {tr : List DbOp} {e : Option DbError}
    (h : ¬ ((b.total : Int) < b.threshold ∧ force = false))
    (h2 : b.flushCore c = (b2, tr, e)) :
    b.flush c force = (b2, tr, 1, e) := by
  unfold BulkUpdater.flush
  rw [if_neg h, h2]

theorem updateOne_no_flush {b : BulkUpdater} (c : Collection) (d : Document)
    (h : (b.total : Int) + 1 < b.threshold) :
    b.updateOne c d = (b.appendDoc d, [], 0, none) := by
  unfold BulkUpdater.updateOne
  have h2 : ¬ (((b.appendDoc d).total : Int) ≥ (b.appendDoc d).threshold) := by
    rw [appendDoc_total, appendDoc_threshold]
    push_cast
    omega
  rw [if_neg h2]

theorem updateOne_flush {b b2 : BulkUpdater} {c : Collection} {d : Document}
    {tr : List DbOp} {e : Option DbError}
    (h : (b.total : Int) + 1 ≥ b.threshold)
    (hfc : (b.appendDoc d).flushCore c = (b2, tr, e)) :
    b.updateOne c d = (b2, tr, 1, e) := by
  unfold BulkUpdater.updateOne
  have h2 : (((b.appendDoc d).total : Int) ≥ (b.appendDoc d).threshold) := by
    rw [appendDoc_total, appendDoc_threshold]
    push_cast
    omega
  rw [if_pos h2]
  refine flush_go ?_ hfc
  rw [appendDoc_total, appendDoc_threshold]
  push_cast
  rintro ⟨h3, _⟩
  omega

/-! ## Claim theorems -/

/-- C5: for every buffer state with total below the threshold, a non-forced
flush performs zero calls on the collection handle and leaves the whole
buffer state, including both pending lists, the total and the lifetime
counters, unchanged. -/
theorem flush_below_threshold_noop (b : BulkUpdater) (c : Collection)
    (h : (b.total : Int) < b.threshold) :
    b.flush c false = (b, [], 0, none) :=
  flush_noop c h

/-- Witness for C5 at a concrete buffer below its threshold. -/
theorem flush_below_threshold_noop_witness :
    ((bufA.total : Int) < bufA.threshold) ∧
    bufA.flush collA false = (bufA, [], 0, none) :=
  ⟨by decide, flush_below_threshold_noop bufA collA (by decide)⟩

/-- C9: for every flush in which some pending insert falls under the default
unique-attribute field name but lacks a field of that name, the flush body
raises a key-lookup error before any query or write is issued, leaving the
pending lists and the total unchanged. -/
theorem flush_missing_unique_field_raises (b : BulkUpdater) (c : Collection)
    (d : Document) (a : String)
    (hd : d ∈ b.inserts) (hov : d.uniqueAttrOverride = none)
    (hdef : b.unique_attr = some a) (ha : ¬ a = "") (hget : d.get a = none) :
    ∃ k, b.flushCore c = (b, [], some (DbError.keyError k)) := by
  have ht : truthyUnique d b.unique_attr = some a := by
    unfold truthyUnique
    rw [hov]
    simp only []
    rw [hdef]
    simp only []
    rw [if_neg ha]
  obtain ⟨k, hk⟩ := buildLookupsAux_error b.unique_attr b.inserts a d hd ht hget []
  have hk2 : buildLookups b.unique_attr b.inserts = Except.error (DbError.keyError k) := hk
  exact ⟨k, flushCore_build_err hk2⟩

/-- Witness for C9 at a concrete buffer whose single pending insert lacks
the default unique field. -/
theorem flush_missing_unique_field_raises_witness :
    docNoEmail ∈ bufMissing.inserts ∧
    docNoEmail.uniqueAttrOverride = none ∧
    bufMissing.unique_attr = some "email" ∧
    ¬ "email" = "" ∧
    docNoEmail.get "email" = none ∧
    (∃ k, bufMissing.flushCore emptyColl = (bufMissing, [], some (DbError.keyError k))) :=
  ⟨by decide, by decide, by decide, by decide, by decide,
    flush_missing_unique_field_raises bufMissing emptyColl docNoEmail "email"
      (by decide) (by decide) (by decide) (by decide) (by decide)⟩

/-- C4: for every flush in which some unique-attribute lookup query fails,
the error propagates out of the flush body and the buffer state is returned
exactly as it was: no document has moved between the lists and no identity
has been attached, because every lookup query is issued before any move or
write happens. -/
theorem flush_query_failure_atomic (b : BulkUpdater) (c : Collection)
    (d : Document) (a : String) (L : List (String × List (Value × Document)))
    (hd : d ∈ b.inserts) (ht : truthyUnique d b.unique_attr = some a)
    (hfail : valMem a c.failing = true)
    (hL : buildLookups b.unique_attr b.inserts = Except.ok L) :
    ∃ tr e, b.flushCore c = (b, tr, some e) := by
  have hL2 : buildLookupsAux b.unique_attr b.inserts [] = Except.ok L := hL
  have hkeys : a ∈ L.map Prod.fst :=
    (buildLookupsAux_keys b.unique_attr b.inserts [] L a hL2).mpr (Or.inr ⟨d, hd, ht⟩)
  obtain ⟨⟨a2, m⟩, hmem, ha2⟩ := List.mem_map.mp hkeys
  have ha2e : a2 = a := ha2
  subst ha2e
  have hferr : c.find a2 (m.map Prod.fst) = Except.error (DbError.findFailed a2) :=
    find_err _ hfail
  obtain ⟨rs, tr, e, hrq⟩ := runQueries_error_of_find hmem hferr
  exact ⟨tr, e, flushCore_query_err hL hrq⟩

/-- Witness for C4 at a concrete buffer whose single lookup query fails. -/
theorem flush_query_failure_atomic_witness :
    docA ∈ bufA.inserts ∧
    truthyUnique docA bufA.unique_attr = some "email" ∧
    valMem "email" collFail.failing = true ∧
    buildLookups bufA.unique_attr bufA.inserts =
      Except.ok [("email", [(Value.str "a", docA)])] ∧
    (∃ tr e, bufA.flushCore collFail = (bufA, tr, some e)) :=
  ⟨by decide, by decide, by decide, by rfl,
    flush_query_failure_atomic bufA collFail docA "email"
      [("email", [(Value.str "a", docA)])]
      (by decide) (by decide) (by decide) (by rfl)⟩

/-- C3: a single-document update call, when it does not cross the threshold,
appends the document to the pending updates exactly when the document
carries an identity field and to the pending inserts otherwise, and
increments the total by one. -/
theorem update_classifies_by_id (b : BulkUpdater) (c : Collection) (d : Document)
    (h : (b.total : Int) + 1 < b.threshold) :
    (b.update c [d]).1.total = b.total + 1 ∧
    ((b.update c [d]).1.updates = b.updates ++ [d] ∧
        (b.update c [d]).1.inserts = b.inserts ↔ d.hasKey "_id" = true) ∧
    ((b.update c [d]).1.inserts = b.inserts ++ [d] ∧
        (b.update c [d]).1.updates = b.updates ↔ d.hasKey "_id" = false) := by
  have h1 : b.update c [d] = (b.appendDoc d, [], 0, none) := by
    simp only [BulkUpdater.update]
    rw [updateOne_no_flush c d h]
    simp only [BulkUpdater.update]
    simp
  rw [h1]
  refine ⟨appendDoc_total b d, ?_, ?_⟩
  · constructor
    · rintro ⟨hu, _⟩
      rcases hk : d.hasKey "_id" with _ | _
      · exfalso
        have h2 := ((appendDoc_lists b d).2 hk).2
        rw [h2] at hu
        have h3 := congrArg List.length hu
        simp at h3
      · rfl
    · intro hk
      exact (appendDoc_lists b d).1 hk
  · constructor
    · rintro ⟨hi, _⟩
      rcases hk : d.hasKey "_id" with _ | _
      · rfl
      · exfalso
        have h2 := ((appendDoc_lists b d).1 hk).2
        rw [h2] at hi
        have h3 := congrArg List.length hi
        simp at h3
    · intro hk
      exact (appendDoc_lists b d).2 hk

/-- Witness for C3 at a concrete document carrying an identity field. -/
theorem update_classifies_by_id_witness :
    (((BulkUpdater.init 100 none).total : Int) + 1 < (BulkUpdater.init 100 none).threshold) ∧
    (((BulkUpdater.init 100 none).update emptyColl [docId]).1.total =
        (BulkUpdater.init 100 none).total + 1 ∧
      (((BulkUpdater.init 100 none).update emptyColl [docId]).1.updates =
          (BulkUpdater.init 100 none).updates ++ [docId] ∧
        ((BulkUpdater.init 100 none).update emptyColl [docId]).1.inserts =
          (BulkUpdater.init 100 none).inserts ↔ docId.hasKey "_id" = true) ∧
      (((BulkUpdater.init 100 none).update emptyColl [docId]).1.inserts =
          (BulkUpdater.init 100 none).inserts ++ [docId] ∧
        ((BulkUpdater.init 100 none).update emptyColl [docId]).1.updates =
          (BulkUpdater.init 100 none).updates ↔ docId.hasKey "_id" = false)) :=
  ⟨by decide, update_classifies_by_id (BulkUpdater.init 100 none) emptyColl docId (by decide)⟩

/-- C2: an update call whose appended document brings the total up to the
threshold triggers exactly one non-forced flush synchronously before
returning, and when that flush succeeds the total is zero afterwards;
moreover the threshold is re-checked after each appended document, so one
multi-document update call can run the flush body several times. -/
theorem update_threshold_triggers_flush (b : BulkUpdater) (c : Collection)
    (d : Document) (hth : b.threshold = (b.total : Int) + 1) :
    (∃ b2 tr e, (b.appendDoc d).flushCore c = (b2, tr, e) ∧
      b.update c [d] = (b2, tr, 1, e) ∧ (e = none → b2.total = 0)) ∧
    ((BulkUpdater.init 1 none).update emptyColl [docA, docB]).2.2.1 = 2 := by
  constructor
  · rcases hfc : (b.appendDoc d).flushCore c with ⟨b2, tr, e⟩
    refine ⟨b2, tr, e, rfl, ?_, ?_⟩
    · have h1 : b.updateOne c d = (b2, tr, 1, e) := updateOne_flush (by omega) hfc
      simp only [BulkUpdater.update]
      rw [h1]
      rcases e with _ | e2
      · simp only [BulkUpdater.update]
        simp
      · rfl
    · intro he
      subst he
      obtain ⟨L, rs, trf, ins2, upd2, _, _, _, _, hb2⟩ := flushCore_ok hfc
      rw [hb2]
  · decide

/-- Witness for C2 at a concrete buffer one document short of its
threshold. -/
theorem update_threshold_triggers_flush_witness :
    ((BulkUpdater.init 1 none).threshold = ((BulkUpdater.init 1 none).total : Int) + 1) ∧
    ((∃ b2 tr e, ((BulkUpdater.init 1 none).appendDoc docA).flushCore emptyColl = (b2, tr, e) ∧
        (BulkUpdater.init 1 none).update emptyColl [docA] = (b2, tr, 1, e) ∧
        (e = none → b2.total = 0)) ∧
      ((BulkUpdater.init 1 none).update emptyColl [docA, docB]).2.2.1 = 2) :=
  ⟨by decide,
    update_threshold_triggers_flush (BulkUpdater.init 1 none) emptyColl docA (by decide)⟩

/-! ## Preservation lemmas for the total invariant -/

theorem inv_flushCore (b : BulkUpdater) (c : Collection)
    (h : b.total = b.updates.length + b.inserts.length) :
    (b.flushCore c).1.total =
      (b.flushCore c).1.updates.length + (b.flushCore c).1.inserts.length := by
  unfold BulkUpdater.flushCore
  rcases h1 : buildLookups b.unique_attr b.inserts with e | L
  · exact h
  · simp only []
    rcases h2 : runQueries c L with ⟨rs, trf, err⟩
    rcases err with _ | e
    · simp only []
      rcases h3 : applyMoves L rs b.inserts b.updates with ⟨ins2, upd2, merr⟩
      have hlen : ins2.length + upd2.length = b.inserts.length + b.updates.length := by
        have h4 := movesFold_length L (triplesOf rs) b.inserts b.updates
        rw [← applyMoves_eq_movesFold, h3] at h4
        exact h4
      rcases merr with _ | e
      · simp
      · simp only []
        omega
    · exact h

theorem inv_flush (b : BulkUpdater) (c : Collection) (force : Bool)
    (h : b.total = b.updates.length + b.inserts.length) :
    (b.flush c force).1.total =
      (b.flush c force).1.updates.length + (b.flush c force).1.inserts.length := by
  unfold BulkUpdater.flush
  by_cases hc : ((b.total : Int) < b.threshold ∧ force = false)
  · rw [if_pos hc]
    exact h
  · rw [if_neg hc]
    rcases hfc : b.flushCore c with ⟨b2, tr, e⟩
    have h2 := inv_flushCore b c h
    rw [hfc] at h2
    exact h2

theorem inv_appendDoc (b : BulkUpdater) (d : Document)
    (h : b.total = b.updates.length + b.inserts.length) :
    (b.appendDoc d).total =
      (b.appendDoc d).updates.length + (b.appendDoc d).inserts.length := by
  unfold BulkUpdater.appendDoc
  split
  · simp only [List.length_append, List.length_cons, List.length_nil]
    omega
  · simp only [List.length_append, List.length_cons, List.length_nil]
    omega

theorem inv_updateOne (b : BulkUpdater) (c : Collection) (d : Document)
    (h : b.total = b.updates.length + b.inserts.length) :
    (b.updateOne c d).1.total =
      (b.updateOne c d).1.updates.length + (b.updateOne c d).1.inserts.length := by
  unfold BulkUpdater.updateOne
  simp only []
  by_cases hc : (((b.appendDoc d).total : Int) ≥ (b.appendDoc d).threshold)
  · rw [if_pos hc]
    exact inv_flush _ c false (inv_appendDoc b d h)
  · rw [if_neg hc]
    exact inv_appendDoc b d h

theorem inv_update (c : Collection) (docs : List Document) :
    ∀ b : BulkUpdater, b.total = b.updates.length + b.inserts.length →
      (b.update c docs).1.total =
        (b.update c docs).1.updates.length + (b.update c docs).1.inserts.length := by
  induction docs with
  | nil =>
    intro b h
    exact h
  | cons d t ih =>
    intro b h
    simp only [BulkUpdater.update]
    rcases h1 : b.updateOne c d with ⟨b2, tr, n, e⟩
    have hb2 : b2.total = b2.updates.length + b2.inserts.length := by
      have h2 := inv_updateOne b c d h
      rw [h1] at h2
      exact h2
    rcases e with _ | e2
    · simp only []
      exact ih b2 hb2
    · simp only []
      exact hb2

theorem inv_runOp (c : Collection) (b : BulkUpdater) (op : BufOp)
    (h : b.total = b.updates.length + b.inserts.length) :
    (runOp c b op).total =
      (runOp c b op).updates.length + (runOp c b op).inserts.length := by
  rcases op with docs | f
  · exact inv_update c docs b h
  · exact inv_flush b c f h

theorem inv_runOps (c : Collection) (ops : List BufOp) :
    ∀ b : BulkUpdater, b.total = b.updates.length + b.inserts.length →
      (runOps c b ops).total =
        (runOps c b ops).updates.length + (runOps c b ops).inserts.length := by
  induction ops with
  | nil => exact fun b h => h
  | cons op t ih =>
    intro b h
    exact ih (runOp c b op) (inv_runOp c b op h)

/-- C7: after any sequence of public update and flush operations from a
fresh buffer, the running total equals the number of pending updates plus
the number of pending inserts: updates increment it as documents are
appended, reconciliation moves preserve the sum, and a completed flush
resets the lists and the total together. -/
theorem total_invariant_reachable (c : Collection) (ops : List BufOp)
    (th : Int) (ua : Option String) :
    (runOps c (BulkUpdater.init th ua) ops).total =
      (runOps c (BulkUpdater.init th ua) ops).updates.length +
        (runOps c (BulkUpdater.init th ua) ops).inserts.length :=
  inv_runOps c ops (BulkUpdater.init th ua) rfl

/-! ## Monotonicity lemmas for the lifetime counters -/

theorem counters_flushCore (b : BulkUpdater) (c : Collection) :
    b.insertedCount ≤ (b.flushCore c).1.insertedCount ∧
    b.updatedCount ≤ (b.flushCore c).1.updatedCount := by
  unfold BulkUpdater.flushCore
  rcases buildLookups b.unique_attr b.inserts with e | L
  · exact ⟨Nat.le_refl _, Nat.le_refl _⟩
  · simp only []
    rcases runQueries c L with ⟨rs, trf, err⟩
    rcases err with _ | e
    · simp only []
      rcases applyMoves L rs b.inserts b.updates with ⟨ins2, upd2, merr⟩
      rcases merr with _ | e
      · simp only []
        exact ⟨Nat.le_add_right _ _, Nat.le_add_right _ _⟩
      · simp only []
        exact ⟨Nat.le_refl _, Nat.le_refl _⟩
    · simp only []
      exact ⟨Nat.le_refl _, Nat.le_refl _⟩

theorem counters_flush (b : BulkUpdater) (c : Collection) (force : Bool) :
    b.insertedCount ≤ (b.flush c force).1.insertedCount ∧
    b.updatedCount ≤ (b.flush c force).1.updatedCount := by
  unfold BulkUpdater.flush
  by_cases hc : ((b.total : Int) < b.threshold ∧ force = false)
  · rw [if_pos hc]
    exact ⟨Nat.le_refl _, Nat.le_refl _⟩
  · rw [if_neg hc]
    rcases hfc : b.flushCore c with ⟨b2, tr, e⟩
    have h2 := counters_flushCore b c
    rw [hfc] at h2
    exact h2

theorem counters_updateOne (b : BulkUpdater) (c : Collection) (d : Document) :
    b.insertedCount ≤ (b.updateOne c d).1.insertedCount ∧
    b.updatedCount ≤ (b.updateOne c d).1.updatedCount := by
  unfold BulkUpdater.updateOne
  simp only []
  have hap := appendDoc_counters b d
  by_cases hc : (((b.appendDoc d).total : Int) ≥ (b.appendDoc d).threshold)
  · rw [if_pos hc]
    have h2 := counters_flush (b.appendDoc d) c false
    rw [hap.1] at h2
    rw [hap.2] at h2
    exact h2
  · rw [if_neg hc]
    exact ⟨Nat.le_of_eq hap.1.symm, Nat.le_of_eq hap.2.symm⟩

theorem counters_update (c : Collection) (docs : List Document) :
    ∀ b : BulkUpdater,
      b.insertedCount ≤ (b.update c docs).1.insertedCount ∧
      b.updatedCount ≤ (b.update c docs).1.updatedCount := by
  induction docs with
  | nil =>
    intro b
    exact ⟨Nat.le_refl _, Nat.le_refl _⟩
  | cons d t ih =>
    intro b
    simp only [BulkUpdater.update]
    rcases h1 : b.updateOne c d with ⟨b2, tr, n, e⟩
    have hb2 : b.insertedCount ≤ b2.insertedCount ∧ b.updatedCount ≤ b2.updatedCount := by
      have h2 := counters_updateOne b c d
      rw [h1] at h2
      exact h2
    rcases e with _ | e2
    · simp only []
      exact ⟨Nat.le_trans hb2.1 (ih b2).1, Nat.le_trans hb2.2 (ih b2).2⟩
    · simp only []
      exact hb2

theorem counters_runOp (c : Collection) (b : BulkUpdater) (op : BufOp) :
    b.insertedCount ≤ (runOp c b op).insertedCount ∧
    b.updatedCount ≤ (runOp c b op).updatedCount := by
  rcases op with docs | f
  · exact counters_update c docs b
  · exact counters_flush b c f

theorem counters_runOps (c : Collection) (ops : List BufOp) :
    ∀ b : BulkUpdater,
      b.insertedCount ≤ (runOps c b ops).insertedCount ∧
      b.updatedCount ≤ (runOps c b ops).updatedCount := by
  induction ops with
  | nil =>
    intro b
    exact ⟨Nat.le_refl _, Nat.le_refl _⟩
  | cons op t ih =>
    intro b
    have h1 := counters_runOp c b op
    have h2 := ih (runOp c b op)
    exact ⟨Nat.le_trans h1.1 h2.1, Nat.le_trans h1.2 h2.2⟩

theorem flush_zero_body {b b1 : BulkUpdater} {c : Collection} {force : Bool}
    {tr0 : List DbOp} {e : Option DbError}
    (h : b.flush c force = (b1, tr0, 0, e)) : b1 = b ∧ tr0 = [] ∧ e = none := by
  unfold BulkUpdater.flush at h
  by_cases hc : ((b.total : Int) < b.threshold ∧ force = false)
  · rw [if_pos hc] at h
    simp only [Prod.mk.injEq] at h
    exact ⟨h.1.symm, h.2.1.symm, h.2.2.2.symm⟩
  · rw [if_neg hc] at h
    rcases hfc : b.flushCore c with ⟨b2, tr2, e2⟩
    rw [hfc] at h
    simp only [Prod.mk.injEq] at h
    exact absurd h.2.2.1 (by simp)

theorem updateOne_zero_body {b b1 : BulkUpdater} {c : Collection} {d : Document}
    {tr0 : List DbOp} {e : Option DbError}
    (h : b.updateOne c d = (b1, tr0, 0, e)) :
    b1 = b.appendDoc d ∧ tr0 = [] ∧ e = none := by
  unfold BulkUpdater.updateOne at h
  simp only [] at h
  by_cases hc : (((b.appendDoc d).total : Int) ≥ (b.appendDoc d).threshold)
  · rw [if_pos hc] at h
    exact flush_zero_body h
  · rw [if_neg hc] at h
    simp only [Prod.mk.injEq] at h
    exact ⟨h.1.symm, h.2.1.symm, h.2.2.2.symm⟩

theorem update_zero_body (c : Collection) (docs : List Document) :
    ∀ b b1 : BulkUpdater, ∀ tr0 : List DbOp, ∀ e : Option DbError,
      b.update c docs = (b1, tr0, 0, e) →
      b1.insertedCount = b.insertedCount ∧ b1.updatedCount = b.updatedCount := by
  induction docs with
  | nil =>
    intro b b1 tr0 e h
    simp only [BulkUpdater.update, Prod.mk.injEq] at h
    rw [← h.1]
    exact ⟨rfl, rfl⟩
  | cons d t ih =>
    intro b b1 tr0 e h
    simp only [BulkUpdater.update] at h
    rcases h1 : b.updateOne c d with ⟨b2, tra, n, err⟩
    rw [h1] at h
    rcases err with _ | e0
    · simp only [] at h
      rcases h2 : b2.update c t with ⟨b3, trb, n2, e2⟩
      rw [h2] at h
      simp only [Prod.mk.injEq] at h
      have hn : n = 0 ∧ n2 = 0 := by
        have := h.2.2.1
        omega
      rw [hn.1] at h1
      obtain ⟨hb2, _, _⟩ := updateOne_zero_body h1
      rw [hn.2] at h2
      have hrec := ih b2 b3 trb e2 h2
      have hap := appendDoc_counters b d
      rw [← h.1]
      constructor
      · rw [hrec.1, hb2, hap.1]
      · rw [hrec.2, hb2, hap.2]
    · simp only [Prod.mk.injEq] at h
      rw [h.2.2.1] at h1
      obtain ⟨_, _, habs⟩ := updateOne_zero_body h1
      exact absurd habs (by simp)

theorem flushCore_err_counters {b b1 : BulkUpdater} {c : Collection}
    {tr0 : List DbOp} {e : DbError}
    (h : b.flushCore c = (b1, tr0, some e)) :
    b1.insertedCount = b.insertedCount ∧ b1.updatedCount = b.updatedCount := by
  unfold BulkUpdater.flushCore at h
  rcases h1 : buildLookups b.unique_attr b.inserts with e2 | L
  · rw [h1] at h
    simp only [Prod.mk.injEq] at h
    rw [← h.1]
    exact ⟨rfl, rfl⟩
  · rw [h1] at h
    simp only [] at h
    rcases h2 : runQueries c L with ⟨rs, trf, err⟩
    rw [h2] at h
    rcases err with _ | e3
    · simp only [] at h
      rcases h3 : applyMoves L rs b.inserts b.updates with ⟨ins2, upd2, merr⟩
      rw [h3] at h
      rcases merr with _ | e4
      · simp only [Prod.mk.injEq] at h
        exact absurd h.2.2 (by simp)
      · simp only [Prod.mk.injEq] at h
        rw [← h.1]
        exact ⟨rfl, rfl⟩
    · simp only [Prod.mk.injEq] at h
      rw [← h.1]
      exact ⟨rfl, rfl⟩

/-- C8: the lifetime counters never decrease across any sequence of public
operations; they increase only during a flush body that performs actual
writes: an update call that triggers no flush body leaves them unchanged,
a flush call that skips the body returns the state unchanged, a flush body
that raises leaves them unchanged, and a successful flush body increments
them by exactly the sizes of the insert list and the update list it has
just written, after reconciliation: the trace consists of the find
queries, the optional bulk insert of that insert list, and one save per
document of that update list. -/
theorem lifetime_counters_monotone (c : Collection) (b b2 : BulkUpdater)
    (tr : List DbOp) (h : b.flushCore c = (b2, tr, none)) :
    (∀ b0 : BulkUpdater, ∀ ops : List BufOp,
      b0.insertedCount ≤ (runOps c b0 ops).insertedCount ∧
      b0.updatedCount ≤ (runOps c b0 ops).updatedCount) ∧
    (∀ b0 b1 : BulkUpdater, ∀ docs : List Document, ∀ tr0 : List DbOp,
      ∀ e : Option DbError, b0.update c docs = (b1, tr0, 0, e) →
      b1.insertedCount = b0.insertedCount ∧ b1.updatedCount = b0.updatedCount) ∧
    (∀ b0 b1 : BulkUpdater, ∀ force : Bool, ∀ tr0 : List DbOp, ∀ e : Option DbError,
      b0.flush c force = (b1, tr0, 0, e) → b1 = b0) ∧
    (∀ b0 b1 : BulkUpdater, ∀ tr0 : List DbOp, ∀ e : DbError,
      b0.flushCore c = (b1, tr0, some e) →
      b1.insertedCount = b0.insertedCount ∧ b1.updatedCount = b0.updatedCount) ∧
    ∃ (trf : List DbOp) (ins2 upd2 : List Document), (∀ op ∈ trf, op.isFind = true) ∧
      tr = trf ++ (if ins2.isEmpty then [] else [DbOp.insert ins2]) ++ upd2.map DbOp.save ∧
      b2.insertedCount = b.insertedCount + ins2.length ∧
      b2.updatedCount = b.updatedCount + upd2.length := by
  refine ⟨fun b0 ops => counters_runOps c ops b0,
    fun b0 b1 docs tr0 e he => update_zero_body c docs b0 b1 tr0 e he,
    fun b0 b1 force tr0 e he => (flush_zero_body he).1,
    fun b0 b1 tr0 e he => flushCore_err_counters he, ?_⟩
  obtain ⟨L, rs, trf, ins2, upd2, hL, hq, hm, htr, hb2⟩ := flushCore_ok h
  refine ⟨trf, ins2, upd2, ?_, htr, by rw [hb2], by rw [hb2]⟩
  obtain ⟨_, htrf, _⟩ := runQueries_ok hq
  subst htrf
  intro op hop
  obtain ⟨e, _, hoe⟩ := List.mem_map.mp hop
  rw [← hoe]
  rfl

/-- Witness for C8 at a concrete successful flush. -/
theorem lifetime_counters_monotone_witness :
    bufA.flushCore collA =
      (bufAFlushed, [DbOp.find "email" [Value.str "a"], DbOp.save docASaved], none) ∧
    ((∀ b0 : BulkUpdater, ∀ ops : List BufOp,
        b0.insertedCount ≤ (runOps collA b0 ops).insertedCount ∧
        b0.updatedCount ≤ (runOps collA b0 ops).updatedCount) ∧
      (∀ b0 b1 : BulkUpdater, ∀ docs : List Document, ∀ tr0 : List DbOp,
        ∀ e : Option DbError, b0.update collA docs = (b1, tr0, 0, e) →
        b1.insertedCount = b0.insertedCount ∧ b1.updatedCount = b0.updatedCount) ∧
      (∀ b0 b1 : BulkUpdater, ∀ force : Bool, ∀ tr0 : List DbOp, ∀ e : Option DbError,
        b0.flush collA force = (b1, tr0, 0, e) → b1 = b0) ∧
      (∀ b0 b1 : BulkUpdater, ∀ tr0 : List DbOp, ∀ e : DbError,
        b0.flushCore collA = (b1, tr0, some e) →
        b1.insertedCount = b0.insertedCount ∧ b1.updatedCount = b0.updatedCount) ∧
      ∃ (trf : List DbOp) (ins2 upd2 : List Document), (∀ op ∈ trf, op.isFind = true) ∧
        [DbOp.find "email" [Value.str "a"], DbOp.save docASaved] =
          trf ++ (if ins2.isEmpty then [] else [DbOp.insert ins2]) ++ upd2.map DbOp.save ∧
        bufAFlushed.insertedCount = bufA.insertedCount + ins2.length ∧
        bufAFlushed.updatedCount = bufA.updatedCount + upd2.length) :=
  ⟨by rfl,
    lifetime_counters_monotone collA bufA bufAFlushed
      [DbOp.find "email" [Value.str "a"], DbOp.save docASaved] (by rfl)⟩

/-- C6: a successful flush issues exactly one find query per distinct
effective unique-attribute field name among the pending inserts that have
one, and every pending insert with no effective unique-attribute field name
is never moved and ends up in the unconditional bulk insert. -/
theorem flush_single_query_per_unique_attr (b b2 : BulkUpdater) (c : Collection)
    (tr : List DbOp) (h : b.flushCore c = (b2, tr, none)) :
    (tr.filter DbOp.isFind).length =
      ((b.inserts.filterMap (fun dd => truthyUnique dd b.unique_attr)).toFinset).card ∧
    ∀ d ∈ b.inserts, truthyUnique d b.unique_attr = none →
      ∃ l, DbOp.insert l ∈ tr ∧ d ∈ l := by
  obtain ⟨L, rs, trf, ins2, upd2, hL, hq, hm, htr, hb2⟩ := flushCore_ok h
  have hL2 : buildLookupsAux b.unique_attr b.inserts [] = Except.ok L := hL
  obtain ⟨hrs, htrf, hfail⟩ := runQueries_ok hq
  constructor
  · subst htr
    rw [List.filter_append, List.filter_append]
    have h1 : trf.filter DbOp.isFind = trf := by
      rw [List.filter_eq_self]
      intro op hop
      rw [htrf] at hop
      obtain ⟨e, _, hoe⟩ := List.mem_map.mp hop
      rw [← hoe]
      rfl
    have h2 : (if ins2.isEmpty then ([] : List DbOp) else [DbOp.insert ins2]).filter
        DbOp.isFind = [] := by
      by_cases he : ins2.isEmpty <;> simp [he, DbOp.isFind]
    have h3 : (upd2.map DbOp.save).filter DbOp.isFind = [] := by
      rw [List.filter_eq_nil_iff]
      intro op hop
      obtain ⟨dd, _, hoe⟩ := List.mem_map.mp hop
      rw [← hoe]
      simp [DbOp.isFind]
    rw [h1, h2, h3]
    have hnodup : (L.map Prod.fst).Nodup :=
      buildLookupsAux_keys_nodup b.unique_attr b.inserts [] L (by simp) hL2
    have hset : (L.map Prod.fst).toFinset =
        (b.inserts.filterMap (fun dd => truthyUnique dd b.unique_attr)).toFinset := by
      ext k
      simp only [List.mem_toFinset, List.mem_filterMap]
      rw [buildLookupsAux_keys b.unique_attr b.inserts [] L k hL2]
      simp
    calc (trf ++ [] ++ []).length = trf.length := by simp
      _ = L.length := by rw [htrf]; simp
      _ = (L.map Prod.fst).length := by simp
      _ = (L.map Prod.fst).toFinset.card := (List.toFinset_card_of_nodup hnodup).symm
      _ = (b.inserts.filterMap (fun dd => truthyUnique dd b.unique_attr)).toFinset.card := by
          rw [hset]
  · intro d hd ht
    have hchar := buildLookupsAux_doc_char b.unique_attr b.inserts b.inserts [] L
      (by
        intro k v dd hl
        simp [alistLookup2, alistLookup] at hl)
      (fun x hx => hx) hL2
    have hmv : movesFold L (triplesOf rs) b.inserts b.updates = (ins2, upd2, none) := by
      rw [← applyMoves_eq_movesFold]
      exact hm
    have hcnt := movesFold_ok_cnt hmv d
    have hfe : (triplesOf rs).filter
        (fun t => decide (alistLookup2 L t.1 t.2.1 = some d)) = [] := by
      rw [List.filter_eq_nil_iff]
      intro t _
      simp only [decide_eq_true_eq]
      intro hl
      obtain ⟨_, htd, _⟩ := hchar t.1 t.2.1 d hl
      rw [ht] at htd
      exact absurd htd (by simp)
    rw [hfe] at hcnt
    have hpos : 0 < cnt d b.inserts := cnt_pos_of_mem hd
    have hdin : d ∈ ins2 := by
      refine mem_of_cnt_pos ?_
      simp only [List.length_nil] at hcnt
      omega
    have hne : ins2.isEmpty = false := by
      rcases ins2 with _ | ⟨x, t2⟩
      · simp at hdin
      · rfl
    refine ⟨ins2, ?_, hdin⟩
    subst htr
    refine List.mem_append.mpr (Or.inl (List.mem_append.mpr (Or.inr ?_)))
    simp [hne]

/-! ## Shared kit for the dedup-merge and duplicate-value claims -/

theorem document_get_set_ne (d : Document) (k : String) (v : Value) (k2 : String)
    (h : ¬ k = k2) : (d.set k v).get k2 = d.get k2 := by
  unfold Document.set Document.get
  simp only []
  rw [alistLookup_alistInsert, if_neg h]

theorem truthyUnique_congr {d1 d2 : Document} (default : Option String)
    (h : d1.uniqueAttrOverride = d2.uniqueAttrOverride) :
    truthyUnique d1 default = truthyUnique d2 default := by
  unfold truthyUnique
  rw [h]

theorem flush_match_kit (b b2 : BulkUpdater) (c : Collection) (tr : List DbOp)
    (dtgt r : Document) (a : String) (V i : Value)
    (hlw : lastWith (pAV b.unique_attr a V) b.inserts = some dtgt)
    (hrem : c.remote.filter (fun rr => decide (rr.get a = some V)) = [r])
    (hid : r.get "_id" = some i)
    (hok : b.flushCore c = (b2, tr, none)) :
    ∃ L rs trf ins2 upd2,
      buildLookups b.unique_attr b.inserts = Except.ok L ∧
      runQueries c L = (rs, trf, none) ∧
      movesFold L (triplesOf rs) b.inserts b.updates = (ins2, upd2, none) ∧
      tr = trf ++ (if ins2.isEmpty then [] else [DbOp.insert ins2]) ++ upd2.map DbOp.save ∧
      (∀ op ∈ trf, op.isFind = true) ∧
      b2 = { b with
              inserts := []
              updates := []
              total := 0
              insertedCount := b.insertedCount + ins2.length
              updatedCount := b.updatedCount + upd2.length } ∧
      upd2 = b.updates ++ movedOf L (triplesOf rs) ∧
      alistLookup2 L a V = some dtgt ∧
      (a, V, i) ∈ triplesOf rs ∧
      cnt (a, V, i) (triplesOf rs) = 1 ∧
      (∀ t ∈ triplesOf rs, alistLookup2 L t.1 t.2.1 = some dtgt → t = (a, V, i)) ∧
      (∀ k v dd, alistLookup2 L k v = some dd →
        dd ∈ b.inserts ∧ truthyUnique dd b.unique_attr = some k ∧ dd.get k = some v) := by
  obtain ⟨L, rs, trf, ins2, upd2, hL, hq, hm, htr, hb2⟩ := flushCore_ok hok
  have hL2 : buildLookupsAux b.unique_attr b.inserts [] = Except.ok L := hL
  obtain ⟨hrs, htrf, hfail⟩ := runQueries_ok hq
  have hbucket : alistLookup2 L a V = some dtgt := by
    rw [buildLookupsAux_lookup2 b.unique_attr a V b.inserts [] L hL2, hlw]
  rcases hLa : alistLookup L a with _ | m
  · exfalso
    unfold alistLookup2 at hbucket
    rw [hLa] at hbucket
    simp only [] at hbucket
    exact absurd hbucket (by simp)
  · have hmV : alistLookup m V = some dtgt := by
      unfold alistLookup2 at hbucket
      rw [hLa] at hbucket
      simpa using hbucket
    have hmemL : (a, m) ∈ L := alistLookup_mem hLa
    have hVm : (V, dtgt) ∈ m := alistLookup_mem hmV
    have hVvals : valMem V (m.map Prod.fst) = true :=
      (valMem_iff_mem V _).mpr (mem_keys_of_mem hVm)
    have hrsmem : (a, pairsDict (projPure a (findPure c a (m.map Prod.fst)))) ∈ rs := by
      rw [hrs]
      exact List.mem_map.mpr ⟨(a, m), hmemL, rfl⟩
    have hfRem : (findPure c a (m.map Prod.fst)).filter
        (fun rr => decide (rr.get a = some V)) = [r] := by
      rw [findPure_filter_val hVvals]
      exact hrem
    have hdictV : alistLookup (pairsDict (projPure a (findPure c a (m.map Prod.fst)))) V =
        some i := by
      rw [alistLookup_pairsDict, lastWith_projPure_of_unique hfRem hid]
    have hdictmem : (V, i) ∈ pairsDict (projPure a (findPure c a (m.map Prod.fst))) :=
      alistLookup_mem hdictV
    have htrip : (a, V, i) ∈ triplesOf rs := mem_triplesOf.mpr ⟨_, hrsmem, hdictmem⟩
    have hLnodup : (L.map Prod.fst).Nodup :=
      buildLookupsAux_keys_nodup b.unique_attr b.inserts [] L (by simp) hL2
    have hrskeys : rs.map Prod.fst = L.map Prod.fst := by
      rw [hrs, List.map_map]
      rfl
    have hrsnodup : (rs.map Prod.fst).Nodup := by
      rw [hrskeys]
      exact hLnodup
    have hdictnodup := pairsDict_keys_nodup (projPure a (findPure c a (m.map Prod.fst)))
    have hcnttrip : cnt (a, V, i) (triplesOf rs) = 1 := by
      rw [cnt_triplesOf_of_nodup hrsnodup hrsmem V i]
      exact cnt_of_nodup_keys_mem hdictnodup hdictmem
    have hchar := buildLookupsAux_doc_char b.unique_attr b.inserts b.inserts [] L
      (by
        intro k v dd hl
        simp [alistLookup2, alistLookup] at hl)
      (fun x hx => hx) hL2
    have hTu : ∀ t ∈ triplesOf rs, alistLookup2 L t.1 t.2.1 = some dtgt →
        t = (a, V, i) := by
      rintro ⟨k, v, i0⟩ htm hl
      obtain ⟨_, htk, hgk⟩ := hchar k v dtgt hl
      obtain ⟨_, hdp⟩ := lastWith_mem hlw
      simp only [pAV, Bool.and_eq_true, decide_eq_true_eq] at hdp
      have hka : k = a := by
        rw [hdp.1] at htk
        injection htk with htk
        exact htk.symm
      subst hka
      have hva : v = V := by
        rw [hdp.2] at hgk
        injection hgk with hgk
        exact hgk.symm
      subst hva
      obtain ⟨m2, hm2, hvm2⟩ := mem_triplesOf.mp htm
      have hm2d : m2 = pairsDict (projPure k (findPure c k (m.map Prod.fst))) := by
        have e1 := alistLookup_of_mem_nodup hrsnodup hm2
        have e2 := alistLookup_of_mem_nodup hrsnodup hrsmem
        rw [e1] at e2
        exact Option.some_inj.mp e2
      subst hm2d
      have hlk : alistLookup (pairsDict (projPure k (findPure c k (m.map Prod.fst)))) v =
          some i0 := alistLookup_of_mem_nodup hdictnodup hvm2
      rw [hdictV] at hlk
      injection hlk with hlk
      rw [hlk]
    have hmv : movesFold L (triplesOf rs) b.inserts b.updates = (ins2, upd2, none) := by
      rw [← applyMoves_eq_movesFold]
      exact hm
    have hupd := movesFold_ok_upd hmv
    have htrff : ∀ op ∈ trf, op.isFind = true := by
      intro op hop
      rw [htrf] at hop
      obtain ⟨e, _, hoe⟩ := List.mem_map.mp hop
      rw [← hoe]
      rfl
    exact ⟨L, rs, trf, ins2, upd2, hL, hq, hmv, htr, htrff, hb2, hupd, hbucket, htrip,
      hcnttrip, hTu, hchar⟩

/-- C1: for every buffer state holding one pending insert with effective
unique attribute a and value V (and no other pending insert colliding on
that attribute and value), if the collection holds exactly one remote
document with that value and a successful flush runs, then the pending
insert receives the remote identity, is written through the per-document
save path and not through the bulk insert, and is moved out of the pending
inserts into the pending updates without duplication. -/
theorem flush_dedup_merge (b b2 : BulkUpdater) (c : Collection) (tr : List DbOp)
    (d r : Document) (a : String) (V i : Value)
    (hcnt1 : cnt d b.inserts = 1)
    (hattr : truthyUnique d b.unique_attr = some a)
    (haid : ¬ a = "_id")
    (hval : d.get a = some V)
    (huniq : ∀ d2 ∈ b.inserts, truthyUnique d2 b.unique_attr = some a →
      d2.get a = some V → d2 = d)
    (hrem : c.remote.filter (fun rr => decide (rr.get a = some V)) = [r])
    (hid : r.get "_id" = some i)
    (hok : b.flushCore c = (b2, tr, none)) :
    ∃ (trf : List DbOp) (ins2 moved : List Document),
      (∀ op ∈ trf, op.isFind = true) ∧
      tr = trf ++ (if ins2.isEmpty then [] else [DbOp.insert ins2]) ++
        (b.updates ++ moved).map DbOp.save ∧
      cnt (d.set "_id" i) moved = 1 ∧
      d ∉ ins2 ∧
      d.set "_id" i ∉ ins2 ∧
      DbOp.save (d.set "_id" i) ∈ tr ∧
      b2.inserts = [] ∧ b2.updates = [] := by
  have hpav : pAV b.unique_attr a V d = true := by
    simp [pAV, hattr, hval]
  have hmem : d ∈ b.inserts := mem_of_cnt_pos (by rw [hcnt1]; exact Nat.one_pos)
  have hu : ∀ x ∈ b.inserts, pAV b.unique_attr a V x = true → x = d := by
    intro x hx hp
    simp only [pAV, Bool.and_eq_true, decide_eq_true_eq] at hp
    exact huniq x hx hp.1 hp.2
  have hlw := lastWith_eq_of_unique hu hmem hpav
  obtain ⟨L, rs, trf, ins2, upd2, hL, hq, hmv, htr, htrff, hb2, hupd, hbucket, htrip,
    hcnttrip, hTu, hchar⟩ := flush_match_kit b b2 c tr d r a V i hlw hrem hid hok
  have hflen : ((triplesOf rs).filter
      (fun t => decide (alistLookup2 L t.1 t.2.1 = some d))).length = 1 := by
    rw [length_filter_of_unique
      (fun t htm hp => hTu t htm (of_decide_eq_true hp)) (by simp [hbucket])]
    exact hcnttrip
  have hcd := movesFold_ok_cnt hmv d
  rw [hflen, hcnt1] at hcd
  have hdnin : d ∉ ins2 := (cnt_eq_zero_iff d ins2).mp (by omega)
  have hsetga : (d.set "_id" i).get a = d.get a :=
    document_get_set_ne d "_id" i a (fun hc => haid hc.symm)
  have hsettr : truthyUnique (d.set "_id" i) b.unique_attr =
      truthyUnique d b.unique_attr := truthyUnique_congr b.unique_attr rfl
  have hsetnin : d.set "_id" i ∉ ins2 := by
    by_cases hsd : d.set "_id" i = d
    · rw [hsd]
      exact hdnin
    · intro hmem2
      have hcx := movesFold_ok_cnt hmv (d.set "_id" i)
      have hxmem : d.set "_id" i ∈ b.inserts := by
        refine mem_of_cnt_pos ?_
        have h2 : 0 < cnt (d.set "_id" i) ins2 := cnt_pos_of_mem hmem2
        omega
      refine hsd (huniq _ hxmem ?_ ?_)
      · rw [hsettr, hattr]
      · rw [hsetga, hval]
  have hmcnt : cnt (d.set "_id" i) (movedOf L (triplesOf rs)) = 1 := by
    unfold movedOf
    rw [cnt_filterMap]
    rw [length_filter_of_unique ?hu2 ?hp2]
    case hu2 =>
      intro t htm hp
      have hf := of_decide_eq_true hp
      obtain ⟨dd, hdd, hde⟩ := Option.map_eq_some'.mp hf
      obtain ⟨hddmem, _, _⟩ := hchar t.1 t.2.1 dd hdd
      have hddov : dd.uniqueAttrOverride = d.uniqueAttrOverride := by
        have e1 : (dd.set "_id" t.2.2).uniqueAttrOverride =
            (d.set "_id" i).uniqueAttrOverride := by rw [hde]
        exact e1
      have hddget : dd.get a = some V := by
        have e2 : (dd.set "_id" t.2.2).get a = (d.set "_id" i).get a := by rw [hde]
        rw [document_get_set_ne dd "_id" t.2.2 a (fun hc => haid hc.symm), hsetga] at e2
        rw [e2]
        exact hval
      have hddt : truthyUnique dd b.unique_attr = some a := by
        rw [truthyUnique_congr b.unique_attr hddov, hattr]
      have hdd_d : dd = d := huniq dd hddmem hddt hddget
      rw [hdd_d] at hdd
      exact hTu t htm hdd
    case hp2 => simp [hbucket]
    exact hcnttrip
  have hsavemem : DbOp.save (d.set "_id" i) ∈ tr := by
    have hmm : d.set "_id" i ∈ movedOf L (triplesOf rs) :=
      mem_of_cnt_pos (by rw [hmcnt]; exact Nat.one_pos)
    rw [htr]
    refine List.mem_append.mpr (Or.inr ?_)
    refine List.mem_map.mpr ⟨d.set "_id" i, ?_, rfl⟩
    rw [hupd]
    exact List.mem_append.mpr (Or.inr hmm)
  refine ⟨trf, ins2, movedOf L (triplesOf rs), htrff, ?_, hmcnt, hdnin, hsetnin,
    hsavemem, ?_, ?_⟩
  · rw [htr, hupd]
  · rw [hb2]
  · rw [hb2]

/-- C10: when two distinct pending inserts share the same effective unique
attribute and value, the lookups table keeps only the last of them, so on a
successful flush against a collection holding exactly one remote document
with that value only the last document is moved to the updates and saved
with the remote identity, while the earlier one stays in the pending
inserts and is bulk-inserted, creating a remote duplicate of that value. -/
theorem flush_duplicate_unique_last_wins (b b2 : BulkUpdater) (c : Collection)
    (tr : List DbOp) (d1 d2 r : Document) (a : String) (V i : Value)
    (hd1 : d1 ∈ b.inserts)
    (hattr1 : truthyUnique d1 b.unique_attr = some a)
    (hval1 : d1.get a = some V)
    (hlast : lastWith (pAV b.unique_attr a V) b.inserts = some d2)
    (hne : ¬ d1 = d2)
    (hrem : c.remote.filter (fun rr => decide (rr.get a = some V)) = [r])
    (hid : r.get "_id" = some i)
    (hok : b.flushCore c = (b2, tr, none)) :
    ∃ ins2, DbOp.insert ins2 ∈ tr ∧ d1 ∈ ins2 ∧
      DbOp.save (d2.set "_id" i) ∈ tr := by
  obtain ⟨L, rs, trf, ins2, upd2, hL, hq, hmv, htr, htrff, hb2, hupd, hbucket, htrip,
    hcnttrip, hTu, hchar⟩ := flush_match_kit b b2 c tr d2 r a V i hlast hrem hid hok
  have hc1 := movesFold_ok_cnt hmv d1
  have hfe : (triplesOf rs).filter
      (fun t => decide (alistLookup2 L t.1 t.2.1 = some d1)) = [] := by
    rw [List.filter_eq_nil_iff]
    intro t _
    simp only [decide_eq_true_eq]
    intro hl
    obtain ⟨_, htk, hgk⟩ := hchar t.1 t.2.1 d1 hl
    have hka : t.1 = a := by
      rw [hattr1] at htk
      injection htk with htk
      exact htk.symm
    have hva : t.2.1 = V := by
      rw [hka] at hgk
      rw [hval1] at hgk
      injection hgk with hgk
      exact hgk.symm
    rw [hka, hva, hbucket] at hl
    injection hl with hl
    exact hne hl.symm
  rw [hfe] at hc1
  simp only [List.length_nil, Nat.add_zero] at hc1
  have hd1in : d1 ∈ ins2 := by
    refine mem_of_cnt_pos ?_
    have := cnt_pos_of_mem hd1
    omega
  have hnem : ins2.isEmpty = false := by
    rcases ins2 with _ | ⟨x, t2⟩
    · simp at hd1in
    · rfl
  have hinsmem : DbOp.insert ins2 ∈ tr := by
    rw [htr]
    refine List.mem_append.mpr (Or.inl (List.mem_append.mpr (Or.inr ?_)))
    simp [hnem]
  have hsavemem : DbOp.save (d2.set "_id" i) ∈ tr := by
    have hmm : d2.set "_id" i ∈ movedOf L (triplesOf rs) := by
      unfold movedOf
      refine List.mem_filterMap.mpr ⟨(a, V, i), htrip, ?_⟩
      simp [hbucket]
    rw [htr]
    refine List.mem_append.mpr (Or.inr ?_)
    refine List.mem_map.mpr ⟨d2.set "_id" i, ?_, rfl⟩
    rw [hupd]
    exact List.mem_append.mpr (Or.inr hmm)
  exact ⟨ins2, hinsmem, hd1in, hsavemem⟩

/-- Witness for C6 at a concrete successful flush issuing one query. -/
theorem flush_single_query_per_unique_attr_witness :
    bufA.flushCore collA =
      (bufAFlushed, [DbOp.find "email" [Value.str "a"], DbOp.save docASaved], none) ∧
    (([DbOp.find "email" [Value.str "a"], DbOp.save docASaved].filter DbOp.isFind).length =
      ((bufA.inserts.filterMap (fun dd => truthyUnique dd bufA.unique_attr)).toFinset).card ∧
    ∀ d ∈ bufA.inserts, truthyUnique d bufA.unique_attr = none →
      ∃ l, DbOp.insert l ∈ [DbOp.find "email" [Value.str "a"], DbOp.save docASaved] ∧
        d ∈ l) :=
  ⟨by rfl,
    flush_single_query_per_unique_attr bufA bufAFlushed collA
      [DbOp.find "email" [Value.str "a"], DbOp.save docASaved] (by rfl)⟩

/-- Witness for C1 at a concrete buffer whose pending insert matches one
remote document by email. -/
theorem flush_dedup_merge_witness :
    cnt docA2 bufA2.inserts = 1 ∧
    truthyUnique docA2 bufA2.unique_attr = some "email" ∧
    ¬ "email" = "_id" ∧
    docA2.get "email" = some (Value.str "a") ∧
    (∀ d2 ∈ bufA2.inserts, truthyUnique d2 bufA2.unique_attr = some "email" →
      d2.get "email" = some (Value.str "a") → d2 = docA2) ∧
    collA.remote.filter (fun rr => decide (rr.get "email" = some (Value.str "a"))) =
      [remoteA] ∧
    remoteA.get "_id" = some (Value.nat 7) ∧
    bufA2.flushCore collA =
      (bufA2Flushed, [DbOp.find "email" [Value.str "a"], DbOp.save docA2Saved], none) ∧
    (∃ (trf : List DbOp) (ins2 moved : List Document),
      (∀ op ∈ trf, op.isFind = true) ∧
      [DbOp.find "email" [Value.str "a"], DbOp.save docA2Saved] =
        trf ++ (if ins2.isEmpty then [] else [DbOp.insert ins2]) ++
          (bufA2.updates ++ moved).map DbOp.save ∧
      cnt (docA2.set "_id" (Value.nat 7)) moved = 1 ∧
      docA2 ∉ ins2 ∧
      docA2.set "_id" (Value.nat 7) ∉ ins2 ∧
      DbOp.save (docA2.set "_id" (Value.nat 7)) ∈
        [DbOp.find "email" [Value.str "a"], DbOp.save docA2Saved] ∧
      bufA2Flushed.inserts = [] ∧ bufA2Flushed.updates = []) :=
  ⟨by decide, by decide, by decide, by decide, by decide, by decide, by decide, by rfl,
    flush_dedup_merge bufA2 bufA2Flushed collA
      [DbOp.find "email" [Value.str "a"], DbOp.save docA2Saved]
      docA2 remoteA "email" (Value.str "a") (Value.nat 7)
      (by decide) (by decide) (by decide) (by decide) (by decide) (by decide)
      (by decide) (by rfl)⟩

/-- Witness for C10 at a concrete buffer holding two pending inserts with
the same email value matching one remote document. -/
theorem flush_duplicate_unique_last_wins_witness :
    docD1 ∈ bufD.inserts ∧
    truthyUnique docD1 bufD.unique_attr = some "email" ∧
    docD1.get "email" = some (Value.str "a") ∧
    lastWith (pAV bufD.unique_attr "email" (Value.str "a")) bufD.inserts = some docD2 ∧
    ¬ docD1 = docD2 ∧
    collA.remote.filter (fun rr => decide (rr.get "email" = some (Value.str "a"))) =
      [remoteA] ∧
    remoteA.get "_id" = some (Value.nat 7) ∧
    bufD.flushCore collA =
      (bufDFlushed,
        [DbOp.find "email" [Value.str "a"], DbOp.insert [docD1], DbOp.save docD2Saved],
        none) ∧
    (∃ ins2, DbOp.insert ins2 ∈
        [DbOp.find "email" [Value.str "a"], DbOp.insert [docD1], DbOp.save docD2Saved] ∧
      docD1 ∈ ins2 ∧
      DbOp.save (docD2.set "_id" (Value.nat 7)) ∈
        [DbOp.find "email" [Value.str "a"], DbOp.insert [docD1], DbOp.save docD2Saved]) :=
  ⟨by decide, by decide, by decide, by decide, by decide, by decide, by decide, by rfl,
    flush_duplicate_unique_last_wins bufD bufDFlushed collA
      [DbOp.find "email" [Value.str "a"], DbOp.insert [docD1], DbOp.save docD2Saved]
      docD1 docD2 remoteA "email" (Value.str "a") (Value.nat 7)
      (by decide) (by decide) (by decide) (by decide) (by decide) (by decide)
      (by decide) (by rfl)⟩
